import Mathlib

/-!
Verification of the StarCluster logging module (`starcluster/logger.py`).

The Python module is shallowly embedded: the per-level console format
templates, `ConsoleLogger.format`, the `_wrap`/`_emit_textwrap`/`_emit`/`emit`
pipeline (including the Python 2.7 `textwrap.TextWrapper` greedy wrapping
algorithm with `width=60`, `replace_whitespace=False`, `break_on_hyphens=False`,
`drop_whitespace=True` that `_wrap` configures), and the module-level handler
wiring (`get_starcluster_logger`, `configure_sc_logging`,
`configure_ssh_logging`, `configure_boto_logging`).

Machine integers do not occur; Python strings are embedded as `String` /
`List Char`.  Fallible operations (a `formatters` dictionary lookup that can
raise `KeyError`, stream writes that can raise) return `Option` / `Except`,
and the stream-write and encoding behaviour of the host is a parameter
(`Env`), so that the exception policy of `ConsoleLogger.emit` can be stated
for every possible write behaviour.
-/

set_option maxHeartbeats 1000000

namespace StarClusterLogger

/-! ## Python character and string primitives -/

/-- Whitespace test of Python 2 byte strings: the characters matched by the
regular-expression class `\s` (space, tab, newline, carriage return, vertical
tab, form feed), which is also the set stripped by `str.strip`/`str.rstrip`. -/
def isPySpace (c : Char) : Bool :=
  c = ' ' || c = '\t' || c = '\n' || c = '\r' || c = Char.ofNat 11 || c = Char.ofNat 12

/-- Python `str.rstrip()`: remove all trailing whitespace characters. -/
def pyRstrip (l : List Char) : List Char :=
  (l.reverse.dropWhile isPySpace).reverse

/-- Python `str.rstrip()` on `String`. -/
def pyRstripStr (s : String) : String :=
  String.mk (pyRstrip s.toList)

/-- Helper for `pySplitlines`; `acc` is the reversed current line and
`sawCR` records that the previous character was a `\r` whose line has
already been emitted, so that an immediately following `\n` is part of the
same `\r\n` break and is skipped. -/
def pySplitlinesAux : Bool → List Char → List Char → List (List Char)
  | _, acc, [] => if acc.isEmpty then [] else [acc.reverse]
  | sawCR, acc, c :: cs =>
    if sawCR && c = '\n' then pySplitlinesAux false acc cs
    else if c = '\n' then acc.reverse :: pySplitlinesAux false [] cs
    else if c = '\r' then acc.reverse :: pySplitlinesAux true [] cs
    else pySplitlinesAux false (c :: acc) cs

/-- Python 2 `str.splitlines()` for byte strings: split on `\n`, `\r\n` and
`\r`; a trailing line break does not produce a trailing empty line. -/
def pySplitlines (l : List Char) : List (List Char) :=
  pySplitlinesAux false [] l

/-- Helper for `pyExpandtabs`; `col` is the current output column (reset to 0
after a line break), tab stops every 8 columns. -/
def pyExpandtabsAux : Nat → List Char → List Char
  | _, [] => []
  | col, c :: cs =>
    if c = '\t' then
      List.replicate (8 - col % 8) ' ' ++ pyExpandtabsAux (col + (8 - col % 8)) cs
    else if c = '\n' ∨ c = '\r' then c :: pyExpandtabsAux 0 cs
    else c :: pyExpandtabsAux (col + 1) cs

/-- Python `str.expandtabs()` with the default tab size 8, as invoked by
`textwrap.TextWrapper._munge_whitespace` (`expand_tabs=True` is the
default; `replace_whitespace` is `False` in `ConsoleLogger._wrap`). -/
def pyExpandtabs (l : List Char) : List Char :=
  pyExpandtabsAux 0 l

/-- Decomposition of a string into the chunk list produced by
`TextWrapper._split` with `break_on_hyphens=False`: the regular expression
`(\s+)` splits the text into maximal whitespace runs and the maximal
non-whitespace runs between them, empties filtered out. -/
def splitChunks : List Char → List (List Char)
  | [] => []
  | c :: cs =>
    match splitChunks cs with
    | [] => [[c]]
    | [] :: rest => [c] :: [] :: rest
    | (d :: ds) :: rest =>
      if isPySpace c = isPySpace d then (c :: d :: ds) :: rest
      else [c] :: (d :: ds) :: rest

/-- A chunk whose characters are all whitespace — exactly the chunks `ch`
with `ch.strip() == ''` in `TextWrapper._wrap_chunks`. -/
def isWsChunk (ch : List Char) : Bool :=
  ch.all isPySpace

/-- Substring test on `List Char` (Python's `in` operator for strings). -/
def containsSub (pat : List Char) : List Char → Bool
  | [] => pat.isEmpty
  | c :: t => pat.isPrefixOf (c :: t) || containsSub pat t

/-- Substring test on `String`. -/
def strContains (pat s : String) : Bool :=
  containsSub pat.toList s.toList

/-! ## The wrapping algorithm of `ConsoleLogger._wrap`

`_wrap` (lines 57–63) builds a `textwrap.TextWrapper(width=60,
replace_whitespace=False)` with `break_on_hyphens = False` and
`drop_whitespace = True` and returns `tw.wrap(msg) or ['']`.  The Python 2.7
`TextWrapper.wrap` pipeline is: `_munge_whitespace` (here only
`text.expandtabs()`), `_split` (here the simple `(\s+)` split, i.e.
`splitChunks`), then the greedy `_wrap_chunks` loop.  The loop is embedded
below one Python construct at a time; `wrapOuterFuel` carries a fuel
argument only to make the recursion structural — `pyWrapChunks` always
supplies enough fuel (`chunksMeasure chunks + 1` outer iterations, each of
which strictly shrinks the measure, cf. `wrapStep_measure_lt`). -/

/-- Total size of a chunk list: characters plus one per chunk.  Each
iteration of the `_wrap_chunks` outer loop strictly decreases it. -/
def chunksMeasure (l : List (List Char)) : Nat :=
  l.foldr (fun ch n => ch.length + 1 + n) 0

/-- The inner greedy loop of `_wrap_chunks`: starting from current line
length `curLen`, pop chunks onto the current line while they fit within
width 60.  Returns (popped chunks, final current length, remaining
chunks). -/
def takeFits (curLen : Nat) : List (List Char) → List (List Char) × Nat × List (List Char)
  | [] => ([], curLen, [])
  | ch :: cs =>
    if curLen + ch.length ≤ 60 then
      match takeFits (curLen + ch.length) cs with
      | (cur, len, rest) => (ch :: cur, len, rest)
    else ([], curLen, ch :: cs)

/-- `_handle_long_word` (with `break_long_words=True`, `width=60 ≥ 1`): if a
chunk longer than the width heads the remainder, move its first
`60 - cur_len` characters onto the current line and leave the rest;
`cur_len ≤ 60` always holds here, so the `Nat` subtraction is exact. -/
def addLongWord : List (List Char) × Nat × List (List Char) → List (List Char) × List (List Char)
  | (cur, _, []) => (cur, [])
  | (cur, len, r0 :: rs) =>
    if 60 < r0.length then (cur ++ [r0.take (60 - len)], r0.drop (60 - len) :: rs)
    else (cur, r0 :: rs)

/-- The `drop_whitespace` deletion at the end of an iteration: if the last
chunk of the current line is pure whitespace (`cur_line[-1].strip() == ''`),
delete it (a single `del`, not a loop). -/
def dropTrailingWs (cur : List (List Char)) : List (List Char) :=
  match cur.getLast? with
  | some lc => if isWsChunk lc then cur.dropLast else cur
  | none => cur

/-- One full iteration of the `_wrap_chunks` outer loop after the
leading-whitespace deletion: greedy fill, long-word handling, trailing
whitespace removal, and emission of the joined line if the current line is
non-empty.  Returns the (optional) emitted line and the remaining chunks. -/
def wrapStep (chunks : List (List Char)) : Option (List Char) × List (List Char) :=
  match addLongWord (takeFits 0 chunks) with
  | (cur2, rest2) =>
    match dropTrailingWs cur2 with
    | [] => (none, rest2)
    | c :: cs => (some ((c :: cs).flatten), rest2)

/-- The leading-whitespace deletion at the top of an iteration: if lines
have already been emitted (`hasLines`) and the next chunk is pure
whitespace, delete it (`drop_whitespace` is `True`). -/
def dropTopWs (hasLines : Bool) (chunks : List (List Char)) : List (List Char) :=
  match hasLines, chunks with
  | true, c0 :: rest0 => if isWsChunk c0 then rest0 else c0 :: rest0
  | _, chunks => chunks

/-- The `_wrap_chunks` outer loop (`while chunks:`), with both indents `""`
so the usable width is 60 throughout.  `hasLines` mirrors `if lines:`. -/
def wrapOuterFuel : Nat → List (List Char) → Bool → List (List Char)
  | 0, _, _ => []
  | fuel + 1, chunks, hasLines =>
    match dropTopWs hasLines chunks with
    | [] => []
    | c :: cs =>
      match wrapStep (c :: cs) with
      | (none, rest2) => wrapOuterFuel fuel rest2 hasLines
      | (some ln, rest2) => ln :: wrapOuterFuel fuel rest2 true

/-- `TextWrapper._wrap_chunks` on an already-split chunk list. -/
def pyWrapChunks (chunks : List (List Char)) : List (List Char) :=
  wrapOuterFuel (chunksMeasure chunks + 1) chunks false

/-- `ConsoleLogger._wrap`: `tw.wrap(msg) or ['']` for the wrapper described
above — munge whitespace, split into chunks, run the greedy loop, and
return `['']` when the result is empty. -/
def pyWrap (l : List Char) : List (List Char) :=
  match pyWrapChunks (splitChunks (pyExpandtabs l)) with
  | [] => [[]]
  | ls => ls

/-- The `lines` list built by `ConsoleLogger._emit_textwrap` (lines 66–68)
before the `__nosplitlines__` join: each line of `record.msg` is wrapped and
the results concatenated. -/
def textwrapLinesList (msg : List Char) : List (List Char) :=
  ((pySplitlines msg).map pyWrap).flatten

/-- `textwrapLinesList` on `String`s. -/
def textwrapLines (msg : String) : List String :=
  (textwrapLinesList msg.toList).map String.mk

/-- Total character count of a chunk list (the length of the line the
chunks would form when joined). -/
def sumLen (ls : List (List Char)) : Nat :=
  (ls.map List.length).sum

/-- The invariant a chunk list obtained from `splitChunks` satisfies and
that the wrapping loop preserves when no chunk exceeds the width: chunks
are non-empty, at most 60 characters, homogeneous (all-whitespace or
all-non-whitespace), adjacent chunks alternate between the two kinds, and
no non-whitespace chunk ends in a hyphen. -/
def GoodChunks (chunks : List (List Char)) : Prop :=
  (∀ ch ∈ chunks, ch ≠ [] ∧ ch.length ≤ 60 ∧
    (∀ x ∈ ch, ∀ y ∈ ch, isPySpace x = isPySpace y) ∧
    (isWsChunk ch = false → ch.getLastD ' ' ≠ '-')) ∧
  List.Chain' (fun a b => isWsChunk a ≠ isWsChunk b) chunks

/-- `'\n'.join(lines)` as performed for `__nosplitlines__` records. -/
def joinWithNewline : List (List Char) → List Char
  | [] => []
  | [l] => l
  | l :: l' :: ls => l ++ '\n' :: joinWithNewline (l' :: ls)

/-! ## Log records and format templates (`logger.py` lines 14–55)

Severity levels are embedded by their numeric values from the Python
`logging` module: `DEBUG = 10`, `INFO = 20`, `WARN = 30`, `ERROR = 40`,
`CRITICAL = FATAL = 50`.  The per-record rendering markers that the source
attaches as ad-hoc attributes (`__raw__`, `__nonewline__`, `__textwrap__`,
`__nosplitlines__`) are embedded as Boolean record fields, `hasattr` becoming
a field test. -/

/-- A `logging.LogRecord` as consumed by this module: numeric severity,
message text (`record.getMessage()` with no interpolation arguments), the
source-location and time fields the templates reference, and the four ad-hoc
rendering markers. -/
structure LogRecord where
  levelno : Nat
  msg : String
  filename : String := ""
  lineno : Nat := 0
  asctime : String := ""
  raw : Bool := false
  nonewline : Bool := false
  textwrap : Bool := false
  nosplitlines : Bool := false
deriving DecidableEq

/-- `logging.getLevelName` for the built-in levels: the `%(levelname)s`
field of a record created at the given numeric level. -/
def levelName (n : Nat) : String :=
  if n = 10 then "DEBUG"
  else if n = 20 then "INFO"
  else if n = 30 then "WARNING"
  else if n = 40 then "ERROR"
  else if n = 50 then "CRITICAL"
  else "Level " ++ toString n

/-- `RAW_FORMAT = "%(message)s"` rendered on a record. -/
def rawFmt (r : LogRecord) : String :=
  r.msg

/-- `DEFAULT_CONSOLE_FORMAT = " - ".join(["%(levelname)s", RAW_FORMAT])`. -/
def defaultConsoleFmt (r : LogRecord) : String :=
  levelName r.levelno ++ " - " ++ rawFmt r

/-- `INFO_FORMAT = " ".join([">>>", RAW_FORMAT])`. -/
def infoFmt (r : LogRecord) : String :=
  ">>> " ++ rawFmt r

/-- `ERROR_CONSOLE_FORMAT = " ".join(["!!!", DEFAULT_CONSOLE_FORMAT])`. -/
def errorConsoleFmt (r : LogRecord) : String :=
  "!!! " ++ defaultConsoleFmt r

/-- `WARN_CONSOLE_FORMAT = " ".join(["***", DEFAULT_CONSOLE_FORMAT])`. -/
def warnConsoleFmt (r : LogRecord) : String :=
  "*** " ++ defaultConsoleFmt r

/-- `FILE_INFO_FORMAT = " - ".join(["%(filename)s:%(lineno)d",
DEFAULT_CONSOLE_FORMAT])`. -/
def fileInfoFmt (r : LogRecord) : String :=
  r.filename ++ ":" ++ toString r.lineno ++ " - " ++ defaultConsoleFmt r

/-- `DEBUG_FORMAT = " ".join(["%(asctime)s", FILE_INFO_FORMAT])` — the
console formatter for DEBUG records; note that it does not mention the
process id. -/
def debugFmt (r : LogRecord) : String :=
  r.asctime ++ " " ++ fileInfoFmt r

/-- `DEBUG_FORMAT_PID = " ".join(["%(asctime)s", "PID: %s" % str(static.PID),
FILE_INFO_FORMAT])` — the template handed to the rotating-file, session and
syslog handlers by `configure_sc_logging`; `pid` stands for `static.PID`. -/
def debugFmtPid (pid : Nat) (r : LogRecord) : String :=
  r.asctime ++ " " ++ ("PID: " ++ toString pid) ++ " " ++ fileInfoFmt r

/-- The numeric levels that have an entry in `ConsoleLogger.formatters`
(`FATAL` and `CRITICAL` are both 50, so the dictionary has five numeric
keys besides `RAW`). -/
def KnownLevel (n : Nat) : Prop :=
  n = 10 ∨ n = 20 ∨ n = 30 ∨ n = 40 ∨ n = 50

instance (n : Nat) : Decidable (KnownLevel n) := by
  unfold KnownLevel; infer_instance

namespace ConsoleLogger

/-- `ConsoleLogger.format` (lines 50–55): a record carrying the `__raw__`
marker is rendered with the `RAW` formatter; otherwise the formatter is
looked up by `record.levelno` in the `formatters` dictionary — a lookup that
raises `KeyError` (here: `none`) for a level with no entry. -/
def format (r : LogRecord) : Option String :=
  if r.raw then some (rawFmt r)
  else if r.levelno = 20 then some (infoFmt r)
  else if r.levelno = 10 then some (debugFmt r)
  else if r.levelno = 30 then some (warnConsoleFmt r)
  else if r.levelno = 40 then some (errorConsoleFmt r)
  else if r.levelno = 50 then some (errorConsoleFmt r)
  else none

end ConsoleLogger

/-! ## The emission pipeline (`logger.py` lines 65–103)

`_emit` writes the formatted record to `self.stream` or, for
ERROR/CRITICAL/FATAL records, to `self.error_stream`.  Whether a given
`stream.write` call succeeds or raises, and what `msg.encode("UTF-8")`
returns, are properties of the host process, so they are parameters of the
model (`Env`); Python exceptions are embedded as the `PyExc` type. -/

/-- The Python exceptions relevant to `ConsoleLogger.emit`: the two
control-flow exceptions its first `except` clause re-raises, and the
data-level exceptions that can arise in the `try` body (`KeyError` from the
`formatters` lookup, `UnicodeError` and `IOError` from `stream.write`). -/
inductive PyExc where
  | keyboardInterrupt
  | systemExit
  | keyError
  | unicodeError
  | ioError
deriving DecidableEq

/-- The exceptions matched by `except (KeyboardInterrupt, SystemExit)`. -/
def PyExc.isControlFlow : PyExc → Bool
  | .keyboardInterrupt => true
  | .systemExit => true
  | _ => false

/-- The two console destinations: `self.stream` (constructed from
`sys.stdout`) and `self.error_stream` (from `sys.stderr`). -/
inductive StreamId where
  | normal
  | error
deriving DecidableEq

/-- Host behaviour the emission pipeline interacts with: the outcome of
each `stream.write(text)` call (`none` = success) and the value of
`msg.encode("UTF-8")` used in the `UnicodeError` fallback. -/
structure Env where
  write : StreamId → String → Option PyExc
  encode : String → String

/-- A successful write: which stream received which text. -/
def Output := StreamId × String
deriving instance DecidableEq for Output

namespace ConsoleLogger

/-- `ConsoleLogger._emit` (lines 75–92): format the record (a `KeyError`
from the lookup propagates), apply the `__nonewline__` rstrip, choose the
stream by `record.levelno in [ERROR, CRITICAL, FATAL]`, and write; Python 2
has `types.UnicodeType`, so the write is retried once with the UTF-8
encoded message if it raises `UnicodeError`, and any other exception (or a
failure of the retry) propagates. -/
def emitOne (env : Env) (r : LogRecord) : Except PyExc Output :=
  match format r with
  | none => .error .keyError
  | some msg0 =>
    let fsMsg := if r.nonewline then pyRstripStr msg0 else msg0 ++ "\n"
    let sid := if r.levelno = 40 ∨ r.levelno = 50 then StreamId.error else StreamId.normal
    match env.write sid fsMsg with
    | none => .ok (sid, fsMsg)
    | some .unicodeError =>
      let fsMsg2 := if r.nonewline then env.encode (pyRstripStr msg0)
                    else env.encode msg0 ++ "\n"
      match env.write sid fsMsg2 with
      | none => .ok (sid, fsMsg2)
      | some e => .error e
    | some e => .error e

/-- The `for line in lines:` loop at the end of `_emit_textwrap` (lines
71–73): each iteration overwrites `record.msg` with the line and calls
`_emit`; an exception aborts the loop with `record.msg` left at the line
being emitted.  Returns the successful writes, the final record, and the
escaping exception if any. -/
def emitLoop (env : Env) (r : LogRecord) : List String → List Output × LogRecord × Option PyExc
  | [] => ([], r, none)
  | l :: ls =>
    match emitOne env { r with msg := l } with
    | .ok out =>
      match emitLoop env { r with msg := l } ls with
      | (outs, rf, e) => (out :: outs, rf, e)
    | .error e => ([], { r with msg := l }, some e)

/-- The line list `_emit_textwrap` finally iterates over: the wrapped lines
of every source line of `record.msg`, re-joined into a single multi-line
string when the record carries `__nosplitlines__`. -/
def textwrapEmitLines (r : LogRecord) : List String :=
  if r.nosplitlines then [String.mk (joinWithNewline (textwrapLinesList r.msg.toList))]
  else textwrapLines r.msg

/-- `ConsoleLogger._emit_textwrap` (lines 65–73). -/
def emitTextwrap (env : Env) (r : LogRecord) : List Output × LogRecord × Option PyExc :=
  emitLoop env r (textwrapEmitLines r)

/-- The `try` body of `ConsoleLogger.emit` (lines 96–99): `_emit_textwrap`
for records carrying `__textwrap__`, plain `_emit` otherwise. -/
def emitBody (env : Env) (r : LogRecord) : List Output × LogRecord × Option PyExc :=
  if r.textwrap then emitTextwrap env r
  else
    match emitOne env r with
    | .ok out => ([out], r, none)
    | .error e => ([], r, some e)

/-- Result of a `ConsoleLogger.emit` call: the writes performed, the final
state of the (mutated) record, the exception re-raised to the caller if
any, and whether `self.handleError(record)` was invoked. -/
structure EmitResult where
  outputs : List Output
  record : LogRecord
  propagated : Option PyExc
  handled : Bool
deriving DecidableEq

/-- `ConsoleLogger.emit` (lines 94–103): run the body;
`KeyboardInterrupt`/`SystemExit` are re-raised, every other exception is
swallowed after calling `self.handleError(record)`. -/
def emit (env : Env) (r : LogRecord) : EmitResult :=
  match emitBody env r with
  | (outs, r', none) => ⟨outs, r', none, false⟩
  | (outs, r', some e) =>
    if e.isControlFlow then ⟨outs, r', some e, false⟩
    else ⟨outs, r', none, true⟩

end ConsoleLogger

/-! ## Module-level wiring (`logger.py` lines 106–193)

The three named logger channels are `logging.getLogger('starcluster')`
(wired at import time by `log = get_starcluster_logger()`),
`logging.getLogger("ssh")` and `logging.getLogger("boto")` (only touched by
their configure functions).  A channel is modelled by its handler list. -/

/-- The handlers this module attaches to logger channels. -/
inductive SCHandler where
  | nullHandler
  | console
  | sessionStream
  | rotatingFile (path : String)
  | sysLog (address : String)
deriving DecidableEq

/-- Modelled from the spec: `static.DEBUG_FILE`, the fixed application
debug-log path constant from the external `static` module ("rotating file
destination at a fixed path"); only its identity matters here. -/
def DEBUG_FILE : String := "debug.log"

/-- Modelled from the spec: `static.SSH_DEBUG_FILE`, the fixed remote-shell
debug-log path constant from the external `static` module. -/
def SSH_DEBUG_FILE : String := "ssh-debug.log"

/-- Modelled from the spec: `static.AWS_DEBUG_FILE`, the fixed cloud-API
debug-log path constant from the external `static` module. -/
def AWS_DEBUG_FILE : String := "aws-debug.log"

/-- `get_starcluster_logger` (lines 111–114): fetch the `'starcluster'`
channel and attach a `NullHandler` to it. -/
def get_starcluster_logger (handlers : List SCHandler) : List SCHandler :=
  handlers ++ [.nullHandler]

/-- The handler lists of the three channels after the module body has run
(lines 117–119): importing the module executes
`log = get_starcluster_logger()`, which gives the `'starcluster'` channel a
`NullHandler`; the `"ssh"` and `"boto"` channels are not touched at import
time. -/
def moduleInitHandlers (name : String) : List SCHandler :=
  if name = "starcluster" then get_starcluster_logger [] else []

/-- `configure_sc_logging(use_syslog=False)` (lines 122–155) acting on the
`'starcluster'` channel's handler list: attach the rotating debug file, the
console handler and the in-memory session stream, then — only when
`use_syslog` is set and `os.path.exists('/dev/log')` — a `SysLogHandler`
on `/dev/log`.  `dev_log_exists` stands for `os.path.exists('/dev/log')`
on the host. -/
def configure_sc_logging (use_syslog : Bool) (dev_log_exists : Bool)
    (handlers : List SCHandler) : List SCHandler :=
  handlers ++ [.rotatingFile DEBUG_FILE, .console, .sessionStream] ++
    (if use_syslog && dev_log_exists then [.sysLog "/dev/log"] else [])

/-- `configure_ssh_logging` (lines 158–174) acting on the `"ssh"` channel's
handler list: attach a rotating file handler on `static.SSH_DEBUG_FILE`. -/
def configure_ssh_logging (handlers : List SCHandler) : List SCHandler :=
  handlers ++ [.rotatingFile SSH_DEBUG_FILE]

/-- `configure_boto_logging` (lines 177–193) acting on the `"boto"`
channel's handler list: attach a rotating file handler on
`static.AWS_DEBUG_FILE`. -/
def configure_boto_logging (handlers : List SCHandler) : List SCHandler :=
  handlers ++ [.rotatingFile AWS_DEBUG_FILE]

/-! ## Concrete inputs used by witnesses and counterexamples -/

/-- An environment whose stream writes always succeed. -/
def envOk : Env := ⟨fun _ _ => none, fun s => s⟩

/-- A concrete DEBUG record. -/
def rDbg : LogRecord :=
  { levelno := 10, msg := "boot", filename := "cli.py", lineno := 42,
    asctime := "2026-01-01 00:00:00,123" }

/-- A record whose level has no entry in the `formatters` dictionary. -/
def rUnknown : LogRecord := { levelno := 25, msg := "odd" }

/-- A word-wrapped record whose 61-character message wraps to two lines. -/
def rTW : LogRecord :=
  { levelno := 20, msg := String.mk (List.replicate 61 'a'), textwrap := true }

/-- A word-wrapped keep-joined record whose 61-character message wraps to
two lines that are re-joined with a newline. -/
def rTWJ : LogRecord :=
  { levelno := 20, msg := String.mk (List.replicate 61 'a'), textwrap := true,
    nosplitlines := true }

/-- A 61-character all-whitespace message: longer than 60 characters and
newline-free, yet `drop_whitespace` erases it entirely, so wrapping yields
the single line `''`. -/
def msgC5 : String := String.mk (List.replicate 61 ' ')

/-- A word-wrap record carrying `msgC5`. -/
def rC5 : LogRecord := { levelno := 20, msg := msgC5, textwrap := true }

/-- A 71-character two-word message that wraps into two lines. -/
def msgW : String := String.mk (List.replicate 40 'a' ++ ' ' :: List.replicate 30 'b')

/-- A word-wrap record carrying `msgW`. -/
def rW : LogRecord := { levelno := 20, msg := msgW, textwrap := true }

/-! ## General lemmas -/

/-- String append is associative. -/
theorem sapp_assoc (a b c : String) : a ++ b ++ c = a ++ (b ++ c) := by
  rcases a with ⟨la⟩; rcases b with ⟨lb⟩; rcases c with ⟨lc⟩
  show String.mk (la ++ lb ++ lc) = String.mk (la ++ (lb ++ lc))
  rw [List.append_assoc]

/-! ## Claims about `ConsoleLogger.format` (C1, C2, C3) -/

/-- Claim C1: for every non-raw record at level INFO, WARN, ERROR, CRITICAL
or FATAL, `ConsoleLogger.format` renders the level's fixed template —
`>>> message` for INFO (20), `*** LEVEL - message` for WARN (30), and
`!!! LEVEL - message` for ERROR (40) and for CRITICAL = FATAL (50) — with
the level's name (`WARNING` for 30, `ERROR` for 40, `CRITICAL` for 50) and
the message text substituted exactly. -/
theorem claim1_level_templates (r : LogRecord) (hraw : r.raw = false) :
    (r.levelno = 20 → ConsoleLogger.format r = some (">>> " ++ r.msg)) ∧
    (r.levelno = 30 → ConsoleLogger.format r = some ("*** " ++ ("WARNING" ++ " - " ++ r.msg))) ∧
    (r.levelno = 40 → ConsoleLogger.format r = some ("!!! " ++ ("ERROR" ++ " - " ++ r.msg))) ∧
    (r.levelno = 50 → ConsoleLogger.format r = some ("!!! " ++ ("CRITICAL" ++ " - " ++ r.msg))) := by
  refine ⟨fun h => ?_, fun h => ?_, fun h => ?_, fun h => ?_⟩ <;>
    simp [ConsoleLogger.format, hraw, h, infoFmt, warnConsoleFmt, errorConsoleFmt,
      defaultConsoleFmt, rawFmt, levelName]

/-- Witness for C1 at a concrete WARN record. -/
theorem claim1_level_templates_witness :
    ConsoleLogger.format { levelno := 30, msg := "low disk" } =
      some ("*** " ++ ("WARNING" ++ " - " ++ "low disk")) :=
  (claim1_level_templates { levelno := 30, msg := "low disk" } rfl).2.1 rfl

/-- Counterexample to claim C2: the console formatter for DEBUG records is
`DEBUG_FORMAT`, which contains no `PID` field at all — the rendered output
for a concrete DEBUG record has no occurrence of `PID`, while the template
the claim describes (`DEBUG_FORMAT_PID`, rendered by `debugFmtPid`) always
contains one. -/
theorem claim2_counterexample :
    ConsoleLogger.format rDbg = some "2026-01-01 00:00:00,123 cli.py:42 - DEBUG - boot" ∧
    strContains "PID" "2026-01-01 00:00:00,123 cli.py:42 - DEBUG - boot" = false ∧
    strContains "PID" (debugFmtPid 1234 rDbg) = true := by
  refine ⟨by decide, by decide, by decide⟩

/-- Claim C2 as amended: for every non-raw DEBUG record, `format` renders
`DEBUG_FORMAT`, i.e. `timestamp filename:line - DEBUG - message` — without
the process id, which appears only in `DEBUG_FORMAT_PID`, the template
`configure_sc_logging` hands to the file, session and syslog handlers. -/
theorem claim2_amended (r : LogRecord) (hraw : r.raw = false) (hlv : r.levelno = 10) :
    ConsoleLogger.format r =
      some (r.asctime ++ " " ++
        (r.filename ++ ":" ++ toString r.lineno ++ " - " ++ ("DEBUG" ++ " - " ++ r.msg))) := by
  simp [ConsoleLogger.format, hraw, hlv, debugFmt, fileInfoFmt, defaultConsoleFmt,
    rawFmt, levelName]

/-- Witness for the amended C2 at a concrete DEBUG record. -/
theorem claim2_amended_witness :
    ConsoleLogger.format rDbg =
      some ("2026-01-01 00:00:00,123" ++ " " ++
        ("cli.py" ++ ":" ++ toString 42 ++ " - " ++ ("DEBUG" ++ " - " ++ "boot"))) :=
  claim2_amended rDbg rfl rfl

/-- Claim C3: a record carrying the raw marker is formatted to exactly its
message, whatever its severity level. -/
theorem claim3_raw_passthrough (r : LogRecord) (h : r.raw = true) :
    ConsoleLogger.format r = some r.msg := by
  simp [ConsoleLogger.format, h, rawFmt]

/-- Witness for C3 at a concrete raw record with an unusual level. -/
theorem claim3_raw_passthrough_witness :
    ConsoleLogger.format { levelno := 35, msg := "bare text", raw := true } =
      some "bare text" :=
  claim3_raw_passthrough { levelno := 35, msg := "bare text", raw := true } rfl

/-! ## Claims about the module wiring (C8, C9) -/

/-- Claim C8: `configure_sc_logging` attaches a syslog handler to the
application channel exactly when `use_syslog` is set and `/dev/log` exists
on the host; in every other combination configuration completes (the
function is total) without attaching one. -/
theorem claim8_syslog_iff (use_syslog dev_log_exists : Bool) :
    SCHandler.sysLog "/dev/log" ∈
        configure_sc_logging use_syslog dev_log_exists (moduleInitHandlers "starcluster") ↔
      use_syslog = true ∧ dev_log_exists = true := by
  cases use_syslog <;> cases dev_log_exists <;> decide

/-- Counterexample to claim C9: at module-load time the remote-shell
(`"ssh"`) and cloud-API (`"boto"`) channels have no handlers at all — in
particular no discard destination — refuting the claim that every one of
the three channels has a discard destination attached by default. -/
theorem claim9_counterexample :
    moduleInitHandlers "ssh" = [] ∧ moduleInitHandlers "boto" = [] := by
  decide

/-- Claim C9 as amended: only the application channel (`'starcluster'`)
receives a discard destination (a `NullHandler`) at module load; the
remote-shell and cloud-API channels have no handlers until their configure
functions attach rotating-file destinations. -/
theorem claim9_amended :
    SCHandler.nullHandler ∈ moduleInitHandlers "starcluster" ∧
    moduleInitHandlers "ssh" = [] ∧
    moduleInitHandlers "boto" = [] ∧
    configure_ssh_logging (moduleInitHandlers "ssh") =
      [SCHandler.rotatingFile SSH_DEBUG_FILE] ∧
    configure_boto_logging (moduleInitHandlers "boto") =
      [SCHandler.rotatingFile AWS_DEBUG_FILE] := by
  decide

/-! ## Lemmas about the emission pipeline -/

/-- A raw record, or one whose level is in the `formatters` dictionary,
always formats successfully. -/
theorem format_isSome (r : LogRecord) (hfmt : r.raw = true ∨ KnownLevel r.levelno) :
    ∃ m, ConsoleLogger.format r = some m := by
  unfold ConsoleLogger.format
  rcases hfmt with h | h
  · simp [h]
  · rcases h with h | h | h | h | h <;> cases hr : r.raw <;> simp [h, hr]

/-- A successful `_emit` writes to the stream selected by the record's
level: the error stream exactly for levels 40 and 50. -/
theorem emitOne_ok_stream (env : Env) (r : LogRecord) (out : Output)
    (h : ConsoleLogger.emitOne env r = .ok out) :
    out.1 = if r.levelno = 40 ∨ r.levelno = 50 then StreamId.error else StreamId.normal := by
  unfold ConsoleLogger.emitOne at h
  split at h
  · exact absurd h (by simp)
  · dsimp only at h
    split at h
    · cases h; rfl
    · split at h
      · cases h; rfl
      · exact absurd h (by simp)
    · exact absurd h (by simp)

/-- When every stream write succeeds, `_emit` succeeds on every record that
formats successfully. -/
theorem emitOne_ok (env : Env) (r : LogRecord)
    (hw : ∀ sid t, env.write sid t = none)
    (hfmt : r.raw = true ∨ KnownLevel r.levelno) :
    ∃ out, ConsoleLogger.emitOne env r = .ok out := by
  obtain ⟨m, hm⟩ := format_isSome r hfmt
  unfold ConsoleLogger.emitOne
  rw [hm]
  dsimp only
  rw [hw]
  exact ⟨_, rfl⟩

/-- Every output of the `_emit_textwrap` loop is a successful `_emit` of a
record with the same level as the looped record. -/
theorem emitLoop_out (env : Env) :
    ∀ (ls : List String) (r : LogRecord) (out : Output),
      out ∈ (ConsoleLogger.emitLoop env r ls).1 →
      ∃ r', r'.levelno = r.levelno ∧ ConsoleLogger.emitOne env r' = .ok out := by
  intro ls
  induction ls with
  | nil => intro r out h; simp [ConsoleLogger.emitLoop] at h
  | cons l ls ih =>
    intro r out h
    unfold ConsoleLogger.emitLoop at h
    cases ho : ConsoleLogger.emitOne env { r with msg := l } with
    | error e => rw [ho] at h; simp at h
    | ok o =>
      rw [ho] at h
      rcases hrec : ConsoleLogger.emitLoop env { r with msg := l } ls with ⟨outs, rf, e⟩
      rw [hrec] at h
      simp at h
      rcases h with h | h
      · exact ⟨{ r with msg := l }, rfl, h ▸ ho⟩
      · obtain ⟨r', hlv, ho'⟩ := ih { r with msg := l } out (by rw [hrec]; exact h)
        exact ⟨r', hlv, ho'⟩

/-- When every stream write succeeds and the record formats, the
`_emit_textwrap` loop emits one record per line, raises nothing, and leaves
`record.msg` at the last line. -/
theorem emitLoop_ok (env : Env) (hw : ∀ sid t, env.write sid t = none) :
    ∀ (ls : List String) (r : LogRecord), (r.raw = true ∨ KnownLevel r.levelno) →
      (ConsoleLogger.emitLoop env r ls).1.length = ls.length ∧
      (ConsoleLogger.emitLoop env r ls).2.2 = none ∧
      (ConsoleLogger.emitLoop env r ls).2.1 = { r with msg := ls.getLastD r.msg } := by
  intro ls
  induction ls with
  | nil => intro r _; exact ⟨rfl, rfl, rfl⟩
  | cons l ls ih =>
    intro r hfmt
    obtain ⟨out, ho⟩ := emitOne_ok env { r with msg := l } hw hfmt
    obtain ⟨ih1, ih2, ih3⟩ := ih { r with msg := l } hfmt
    unfold ConsoleLogger.emitLoop
    rw [ho]
    rcases hrec : ConsoleLogger.emitLoop env { r with msg := l } ls with ⟨outs, rf, e⟩
    rw [hrec] at ih1 ih2 ih3
    refine ⟨by simpa using ih1, by simpa using ih2, ?_⟩
    rw [List.getLastD_cons]
    exact ih3

/-- `emit` reports exactly the outputs of its `try` body. -/
theorem emit_outputs (env : Env) (r : LogRecord) :
    (ConsoleLogger.emit env r).outputs = (ConsoleLogger.emitBody env r).1 := by
  unfold ConsoleLogger.emit
  rcases ConsoleLogger.emitBody env r with ⟨outs, r', e?⟩
  cases e? with
  | none => rfl
  | some e => by_cases h : e.isControlFlow <;> simp [h]

/-- `emit` reports exactly the final record state of its `try` body. -/
theorem emit_record (env : Env) (r : LogRecord) :
    (ConsoleLogger.emit env r).record = (ConsoleLogger.emitBody env r).2.1 := by
  unfold ConsoleLogger.emit
  rcases ConsoleLogger.emitBody env r with ⟨outs, r', e?⟩
  cases e? with
  | none => rfl
  | some e => by_cases h : e.isControlFlow <;> simp [h]

/-- Every output of `emit` is a successful `_emit` of a record with the
emitted record's level. -/
theorem emit_out (env : Env) (r : LogRecord) (out : Output)
    (h : out ∈ (ConsoleLogger.emit env r).outputs) :
    ∃ r', r'.levelno = r.levelno ∧ ConsoleLogger.emitOne env r' = .ok out := by
  rw [emit_outputs] at h
  unfold ConsoleLogger.emitBody at h
  split at h
  · exact emitLoop_out env _ r out h
  · cases ho : ConsoleLogger.emitOne env r with
    | error e => rw [ho] at h; simp at h
    | ok o =>
      rw [ho] at h
      simp at h
      exact ⟨r, rfl, h ▸ ho⟩

/-- The default value of `getLastD` is irrelevant on a non-empty list. -/
theorem getLastD_of_ne_nil {α : Type} (l : List α) (h : l ≠ []) (a b : α) :
    l.getLastD a = l.getLastD b := by
  cases l with
  | nil => exact absurd rfl h
  | cons x xs => rw [List.getLastD_cons, List.getLastD_cons]

/-- A non-empty string has a non-empty character list. -/
theorem toList_ne_nil (s : String) (h : s ≠ "") : s.toList ≠ [] := by
  rcases s with ⟨d⟩
  intro hc
  apply h
  have hd : d = [] := hc
  subst hd
  rfl

/-- A `pySplitlinesAux` run started outside a `\r\n` break only returns no
lines when both the accumulator and the input are empty. -/
theorem pySplitlinesAux_eq_nil : ∀ (cs acc : List Char),
    pySplitlinesAux false acc cs = [] → acc = [] ∧ cs = [] := by
  intro cs
  induction cs with
  | nil =>
    intro acc h
    unfold pySplitlinesAux at h
    by_cases ha : acc.isEmpty
    · exact ⟨by simpa using ha, rfl⟩
    · simp [ha] at h
  | cons c cs ih =>
    intro acc h
    unfold pySplitlinesAux at h
    simp only [Bool.false_and, Bool.false_eq_true, if_false] at h
    by_cases h1 : c = '\n'
    · simp [h1] at h
    · by_cases h2 : c = '\r'
      · simp [h1, h2] at h
      · simp only [h1, h2, if_false] at h
        obtain ⟨h3, _⟩ := ih (c :: acc) h
        exact absurd h3 (by simp)

/-- Splitting a non-empty string yields at least one line. -/
theorem pySplitlines_ne_nil (l : List Char) (h : l ≠ []) : pySplitlines l ≠ [] := by
  intro hc
  exact h (pySplitlinesAux_eq_nil l [] hc).2

/-- `_wrap` never returns an empty line list (`tw.wrap(msg) or ['']`). -/
theorem pyWrap_ne_nil (l : List Char) : pyWrap l ≠ [] := by
  unfold pyWrap
  split
  · simp
  · simp_all

/-- A non-empty message always produces at least one wrapped line. -/
theorem textwrapLinesList_ne_nil (msg : List Char) (h : msg ≠ []) :
    textwrapLinesList msg ≠ [] := by
  unfold textwrapLinesList
  cases hs : pySplitlines msg with
  | nil => exact absurd hs (pySplitlines_ne_nil msg h)
  | cons p ps =>
    simp only [List.map_cons, List.flatten_cons]
    intro hc
    exact pyWrap_ne_nil p (List.append_eq_nil.mp hc).1

/-! ## Claims about emission (C4, C7, C10) -/

/-- Claim C4: every record the console destination actually writes goes to
the error stream exactly when its severity is ERROR (40), CRITICAL or FATAL
(both 50), and to the normal stream for every other severity; the raw
marker plays no role in the routing. -/
theorem claim4_stream_routing (env : Env) (r : LogRecord) (out : Output)
    (h : out ∈ (ConsoleLogger.emit env r).outputs) :
    out.1 = StreamId.error ↔ r.levelno = 40 ∨ r.levelno = 50 := by
  obtain ⟨r', hlv, ho⟩ := emit_out env r out h
  have hs := emitOne_ok_stream env r' out ho
  rw [hlv] at hs
  by_cases hc : r.levelno = 40 ∨ r.levelno = 50
  · simp only [hc, if_true] at hs
    simp [hs, hc]
  · simp only [hc, if_false] at hs
    simp [hs, hc]

/-- Witness for C4: a concrete ERROR record is written to the error
stream. -/
theorem claim4_stream_routing_witness :
    ((StreamId.error, "!!! " ++ ("ERROR" ++ " - " ++ "bad") ++ "\n") : Output).1 = StreamId.error ↔
      ({ levelno := 40, msg := "bad" } : LogRecord).levelno = 40 ∨
      ({ levelno := 40, msg := "bad" } : LogRecord).levelno = 50 :=
  claim4_stream_routing envOk { levelno := 40, msg := "bad" }
    (StreamId.error, "!!! " ++ ("ERROR" ++ " - " ++ "bad") ++ "\n") (by decide)

/-- Claim C7: `ConsoleLogger.emit` never re-raises anything but the
control-flow exceptions: whenever it propagates an exception, that
exception is `KeyboardInterrupt` or `SystemExit`; and whenever its `try`
body raises, a control-flow exception propagates unmodified while any other
exception is swallowed and reported through `handleError`. -/
theorem claim7_exception_policy (env : Env) (r : LogRecord) :
    (∀ e, (ConsoleLogger.emit env r).propagated = some e → e.isControlFlow = true) ∧
    (∀ e, (ConsoleLogger.emitBody env r).2.2 = some e →
      (e.isControlFlow = true →
        (ConsoleLogger.emit env r).propagated = some e ∧
        (ConsoleLogger.emit env r).handled = false) ∧
      (e.isControlFlow = false →
        (ConsoleLogger.emit env r).propagated = none ∧
        (ConsoleLogger.emit env r).handled = true)) := by
  unfold ConsoleLogger.emit
  rcases ConsoleLogger.emitBody env r with ⟨outs, r', e?⟩
  cases e? with
  | none => simp
  | some e =>
    by_cases h : e.isControlFlow <;> simp [h]

/-- Witness for C7: a record with no formatter entry makes the body raise
`KeyError`, which `emit` swallows after calling `handleError`. -/
theorem claim7_exception_policy_witness :
    (ConsoleLogger.emit envOk rUnknown).propagated = none ∧
    (ConsoleLogger.emit envOk rUnknown).handled = true :=
  ((claim7_exception_policy envOk rUnknown).2 .keyError (by decide)).2 rfl

/-- Claim C10: emitting a word-wrap record mutates it in place — after a
fully successful `emit`, `record.msg` holds the last wrapped line (or the
single `\n`-joined text when the keep-joined marker is also set), so a
later handler on the same channel would observe the altered message. -/
theorem claim10_record_mutation (env : Env) (r : LogRecord)
    (hw : ∀ sid t, env.write sid t = none)
    (htw : r.textwrap = true)
    (hfmt : r.raw = true ∨ KnownLevel r.levelno)
    (hmsg : r.msg ≠ "") :
    (ConsoleLogger.emit env r).record.msg =
      if r.nosplitlines = true
      then String.mk (joinWithNewline (textwrapLinesList r.msg.toList))
      else (textwrapLines r.msg).getLastD "" := by
  rw [emit_record]
  unfold ConsoleLogger.emitBody
  rw [htw]
  simp only [if_true]
  unfold ConsoleLogger.emitTextwrap
  obtain ⟨-, -, h3⟩ := emitLoop_ok env hw (ConsoleLogger.textwrapEmitLines r) r hfmt
  rw [h3]
  unfold ConsoleLogger.textwrapEmitLines
  cases hns : r.nosplitlines with
  | true => simp [hns]
  | false =>
    simp only [hns, Bool.false_eq_true, if_false]
    have hne : textwrapLines r.msg ≠ [] := by
      unfold textwrapLines
      simp only [ne_eq, List.map_eq_nil_iff]
      exact textwrapLinesList_ne_nil r.msg.toList (toList_ne_nil r.msg hmsg)
    exact getLastD_of_ne_nil (textwrapLines r.msg) hne r.msg ""

/-- Witness for C10: the 61-character message of `rTW` wraps to two lines
and `emit` leaves `record.msg` at the last one. -/
theorem claim10_record_mutation_witness :
    (ConsoleLogger.emit envOk rTW).record.msg =
      if rTW.nosplitlines = true
      then String.mk (joinWithNewline (textwrapLinesList rTW.msg.toList))
      else (textwrapLines rTW.msg).getLastD "" :=
  claim10_record_mutation envOk rTW (fun _ _ => rfl) rfl
    (Or.inr (Or.inr (Or.inl rfl))) (by decide)

/-! ## Character-tracing lemmas for the wrapping pipeline -/

/-- Unfolding `takeFits` when the next chunk fits. -/
theorem takeFits_pos (n : Nat) (ch : List Char) (cs : List (List Char))
    (h : n + ch.length ≤ 60) :
    takeFits n (ch :: cs) =
      (ch :: (takeFits (n + ch.length) cs).1, (takeFits (n + ch.length) cs).2.1,
        (takeFits (n + ch.length) cs).2.2) := by
  conv_lhs => rw [takeFits]
  rw [if_pos h]

/-- Unfolding `takeFits` when the next chunk does not fit. -/
theorem takeFits_neg {n : Nat} {ch : List Char} {cs : List (List Char)}
    (h : ¬(n + ch.length ≤ 60)) :
    takeFits n (ch :: cs) = ([], n, ch :: cs) := by
  unfold takeFits
  rw [if_neg h]

/-- The inner greedy loop splits its input into the popped prefix and the
remaining suffix. -/
theorem takeFits_append : ∀ (l : List (List Char)) (n : Nat),
    (takeFits n l).1 ++ (takeFits n l).2.2 = l := by
  intro l
  induction l with
  | nil => intro n; rfl
  | cons ch cs ih =>
    intro n
    by_cases h : n + ch.length ≤ 60
    · rw [takeFits_pos n ch cs h]
      simpa using ih (n + ch.length)
    · rw [takeFits_neg h]
      rfl

/-- Characters on the long-word handler's outputs come from its inputs. -/
theorem addLongWord_chars (cur : List (List Char)) (len : Nat)
    (rest : List (List Char)) (c : Char) :
    ((∃ ch ∈ (addLongWord (cur, len, rest)).1, c ∈ ch) →
      (∃ ch ∈ cur, c ∈ ch) ∨ ∃ ch ∈ rest, c ∈ ch) ∧
    ((∃ ch ∈ (addLongWord (cur, len, rest)).2, c ∈ ch) → ∃ ch ∈ rest, c ∈ ch) := by
  cases rest with
  | nil => simp [addLongWord]
  | cons r0 rs =>
    by_cases h : 60 < r0.length
    · simp only [addLongWord, if_pos h]
      constructor
      · rintro ⟨ch, hch, hc⟩
        rcases List.mem_append.mp hch with h1 | h1
        · exact Or.inl ⟨ch, h1, hc⟩
        · right
          refine ⟨r0, by simp, ?_⟩
          simp only [List.mem_singleton] at h1
          subst h1
          exact List.mem_of_mem_take hc
      · rintro ⟨ch, hch, hc⟩
        rcases List.mem_cons.mp hch with h1 | h1
        · refine ⟨r0, by simp, ?_⟩
          subst h1
          exact List.mem_of_mem_drop hc
        · exact ⟨ch, by simp [h1], hc⟩
    · simp only [addLongWord, if_neg h]
      exact ⟨fun h => Or.inl h, fun h => h⟩

/-- The trailing-whitespace deletion only removes chunks. -/
theorem dropTrailingWs_subset (cur : List (List Char)) : dropTrailingWs cur ⊆ cur := by
  unfold dropTrailingWs
  cases h : cur.getLast? with
  | none => exact fun x hx => hx
  | some lc =>
    dsimp only
    by_cases hws : isWsChunk lc = true
    · rw [if_pos hws]
      exact (List.dropLast_sublist cur).subset
    · rw [if_neg hws]
      exact fun x hx => hx

/-- The leading-whitespace deletion only removes chunks. -/
theorem dropTopWs_subset (b : Bool) (chunks : List (List Char)) :
    dropTopWs b chunks ⊆ chunks := by
  unfold dropTopWs
  cases b with
  | false => exact fun x hx => hx
  | true =>
    cases chunks with
    | nil => exact fun x hx => hx
    | cons c0 rest0 =>
      dsimp only
      by_cases hws : isWsChunk c0 = true
      · rw [if_pos hws]
        exact fun x hx => List.mem_cons_of_mem c0 hx
      · rw [if_neg hws]
        exact fun x hx => hx

/-- Characters on a `wrapStep` line or in its chunk remainder come from the
input chunks. -/
theorem wrapStep_chars (chunks : List (List Char)) (c : Char)
    (h : (∃ ln, (wrapStep chunks).1 = some ln ∧ c ∈ ln) ∨
      ∃ ch ∈ (wrapStep chunks).2, c ∈ ch) :
    ∃ ch ∈ chunks, c ∈ ch := by
  unfold wrapStep at h
  rcases ht : takeFits 0 chunks with ⟨cur, len, rest⟩
  rw [ht] at h
  have happ := takeFits_append chunks 0
  rw [ht] at happ
  have hal := addLongWord_chars cur len rest c
  rcases hlw : addLongWord (cur, len, rest) with ⟨cur2, rest2⟩
  rw [hlw] at h hal
  dsimp only at h hal
  have fromCur : (∃ ch ∈ cur, c ∈ ch) → ∃ ch ∈ chunks, c ∈ ch := by
    rintro ⟨ch, h1, h2⟩
    exact ⟨ch, happ ▸ List.mem_append_left rest h1, h2⟩
  have fromRest : (∃ ch ∈ rest, c ∈ ch) → ∃ ch ∈ chunks, c ∈ ch := by
    rintro ⟨ch, h1, h2⟩
    exact ⟨ch, happ ▸ List.mem_append_right cur h1, h2⟩
  cases hd : dropTrailingWs cur2 with
  | nil =>
    rw [hd] at h
    dsimp only at h
    rcases h with ⟨ln, hln, _⟩ | h
    · exact absurd hln (by simp)
    · exact fromRest (hal.2 h)
  | cons x xs =>
    rw [hd] at h
    dsimp only at h
    rcases h with ⟨ln, hln, hc⟩ | h
    · have hln' : ln = (x :: xs).flatten := by
        simpa using hln.symm
      subst hln'
      obtain ⟨ch2, hch2, hc2⟩ := List.mem_flatten.mp hc
      have : ch2 ∈ cur2 := dropTrailingWs_subset cur2 (hd ▸ hch2)
      rcases hal.1 ⟨ch2, this, hc2⟩ with h1 | h1
      · exact fromCur h1
      · exact fromRest h1
    · exact fromRest (hal.2 h)

/-- Characters on any line produced by the outer wrapping loop come from
the input chunks. -/
theorem wrapOuterFuel_chars : ∀ (fuel : Nat) (chunks : List (List Char)) (b : Bool)
    (ln : List Char) (c : Char), ln ∈ wrapOuterFuel fuel chunks b → c ∈ ln →
    ∃ ch ∈ chunks, c ∈ ch := by
  intro fuel
  induction fuel with
  | zero => intro chunks b ln c h; simp [wrapOuterFuel] at h
  | succ fuel ih =>
    intro chunks b ln c h hc
    unfold wrapOuterFuel at h
    cases hd : dropTopWs b chunks with
    | nil => rw [hd] at h; simp at h
    | cons c0 cs =>
      rw [hd] at h
      dsimp only at h
      have hsub : ∀ x, x ∈ c0 :: cs → x ∈ chunks := fun x hx =>
        dropTopWs_subset b chunks (hd ▸ hx)
      rcases hws : wrapStep (c0 :: cs) with ⟨ln?, rest2⟩
      rw [hws] at h
      cases ln? with
      | none =>
        dsimp only at h
        obtain ⟨ch, hch, hc2⟩ := ih rest2 b ln c h hc
        obtain ⟨ch', h1, h2⟩ :=
          wrapStep_chars (c0 :: cs) c (Or.inr ⟨ch, by rw [hws]; exact hch, hc2⟩)
        exact ⟨ch', hsub ch' h1, h2⟩
      | some l0 =>
        dsimp only at h
        rcases List.mem_cons.mp h with rfl | h
        · obtain ⟨ch', h1, h2⟩ :=
            wrapStep_chars (c0 :: cs) c (Or.inl ⟨ln, by rw [hws], hc⟩)
          exact ⟨ch', hsub ch' h1, h2⟩
        · obtain ⟨ch, hch, hc2⟩ := ih rest2 true ln c h hc
          obtain ⟨ch', h1, h2⟩ :=
            wrapStep_chars (c0 :: cs) c (Or.inr ⟨ch, by rw [hws]; exact hch, hc2⟩)
          exact ⟨ch', hsub ch' h1, h2⟩

/-- Concatenating the chunks of a string recovers the string. -/
theorem splitChunks_flatten : ∀ (l : List Char), (splitChunks l).flatten = l := by
  intro l
  induction l with
  | nil => rfl
  | cons c cs ih =>
    unfold splitChunks
    cases h : splitChunks cs with
    | nil =>
      rw [h] at ih
      dsimp only
      have hcs : cs = [] := by simpa using ih.symm
      subst hcs
      rfl
    | cons ch rest =>
      cases ch with
      | nil =>
        rw [h] at ih
        dsimp only
        simpa using ih
      | cons d ds =>
        rw [h] at ih
        dsimp only
        by_cases hcls : isPySpace c = isPySpace d
        · rw [if_pos hcls]
          simpa using ih
        · rw [if_neg hcls]
          simpa using ih

/-- Every character of `expandtabs l` is a character of `l` or a space. -/
theorem pyExpandtabsAux_mem : ∀ (l : List Char) (col : Nat) (c : Char),
    c ∈ pyExpandtabsAux col l → c ∈ l ∨ c = ' ' := by
  intro l
  induction l with
  | nil => intro col c h; simp [pyExpandtabsAux] at h
  | cons x xs ih =>
    intro col c h
    unfold pyExpandtabsAux at h
    by_cases h1 : x = '\t'
    · rw [if_pos h1] at h
      rcases List.mem_append.mp h with h2 | h2
      · exact Or.inr (List.eq_of_mem_replicate h2)
      · rcases ih _ c h2 with h3 | h3
        · exact Or.inl (List.mem_cons_of_mem x h3)
        · exact Or.inr h3
    · rw [if_neg h1] at h
      by_cases h2 : x = '\n' ∨ x = '\r'
      · rw [if_pos h2] at h
        rcases List.mem_cons.mp h with h3 | h3
        · exact Or.inl (h3 ▸ List.mem_cons_self x xs)
        · rcases ih 0 c h3 with h4 | h4
          · exact Or.inl (List.mem_cons_of_mem x h4)
          · exact Or.inr h4
      · rw [if_neg h2] at h
        rcases List.mem_cons.mp h with h3 | h3
        · exact Or.inl (h3 ▸ List.mem_cons_self x xs)
        · rcases ih (col + 1) c h3 with h4 | h4
          · exact Or.inl (List.mem_cons_of_mem x h4)
          · exact Or.inr h4

/-- Every character of a wrapped line of `l` is a character of `l` or a
space (inserted by tab expansion). -/
theorem pyWrap_chars (l : List Char) (ln : List Char) (c : Char)
    (hln : ln ∈ pyWrap l) (hc : c ∈ ln) : c ∈ l ∨ c = ' ' := by
  unfold pyWrap at hln
  cases hp : pyWrapChunks (splitChunks (pyExpandtabs l)) with
  | nil =>
    rw [hp] at hln
    simp only [List.mem_singleton] at hln
    subst hln
    simp at hc
  | cons l0 ls0 =>
    rw [hp] at hln
    dsimp only at hln
    have hln2 : ln ∈ wrapOuterFuel
        (chunksMeasure (splitChunks (pyExpandtabs l)) + 1)
        (splitChunks (pyExpandtabs l)) false := by
      show ln ∈ pyWrapChunks (splitChunks (pyExpandtabs l))
      rw [hp]
      exact hln
    obtain ⟨ch, hch, hc2⟩ := wrapOuterFuel_chars _ _ false ln c hln2 hc
    have : c ∈ (splitChunks (pyExpandtabs l)).flatten :=
      List.mem_flatten.mpr ⟨ch, hch, hc2⟩
    rw [splitChunks_flatten] at this
    exact pyExpandtabsAux_mem l 0 c this

/-- The lines produced by `splitlines` contain no line-break characters. -/
theorem pySplitlinesAux_no_break : ∀ (cs acc : List Char) (sawCR : Bool),
    (∀ c ∈ acc, c ≠ '\n' ∧ c ≠ '\r') →
    ∀ piece ∈ pySplitlinesAux sawCR acc cs, ∀ c ∈ piece, c ≠ '\n' ∧ c ≠ '\r' := by
  intro cs
  induction cs with
  | nil =>
    intro acc sawCR hacc piece hp c hcp
    unfold pySplitlinesAux at hp
    by_cases ha : acc.isEmpty
    · simp [ha] at hp
    · simp only [ha, Bool.false_eq_true, if_false, List.mem_singleton] at hp
      subst hp
      exact hacc c (List.mem_reverse.mp hcp)
  | cons x xs ih =>
    intro acc sawCR hacc piece hp c hcp
    unfold pySplitlinesAux at hp
    by_cases h0 : sawCR && x = '\n'
    · rw [if_pos h0] at hp
      exact ih acc false hacc piece hp c hcp
    · rw [if_neg h0] at hp
      by_cases h1 : x = '\n'
      · rw [if_pos h1] at hp
        rcases List.mem_cons.mp hp with h2 | h2
        · subst h2
          exact hacc c (List.mem_reverse.mp hcp)
        · exact ih [] false (by simp) piece h2 c hcp
      · rw [if_neg h1] at hp
        by_cases h2 : x = '\r'
        · rw [if_pos h2] at hp
          rcases List.mem_cons.mp hp with h3 | h3
          · subst h3
            exact hacc c (List.mem_reverse.mp hcp)
          · exact ih [] true (by simp) piece h3 c hcp
        · rw [if_neg h2] at hp
          refine ih (x :: acc) false ?_ piece hp c hcp
          intro d hd
          rcases List.mem_cons.mp hd with h3 | h3
          · exact h3 ▸ ⟨h1, h2⟩
          · exact hacc d h3

/-- No wrapped output line contains a newline character. -/
theorem textwrapLinesList_no_nl (msg : List Char) (ln : List Char)
    (h : ln ∈ textwrapLinesList msg) : '\n' ∉ ln := by
  intro hc
  unfold textwrapLinesList at h
  obtain ⟨wls, hwls, hln⟩ := List.mem_flatten.mp h
  obtain ⟨piece, hp, rfl⟩ := List.mem_map.mp hwls
  rcases pyWrap_chars piece ln '\n' hln hc with h1 | h1
  · exact (pySplitlinesAux_no_break msg [] false (by simp) piece hp '\n' h1).1 rfl
  · simp at h1

/-- Counting newlines in a `'\n'.join` of newline-free lines. -/
theorem count_nl_joinWithNewline : ∀ (ls : List (List Char)), ls ≠ [] →
    (∀ l ∈ ls, '\n' ∉ l) → (joinWithNewline ls).count '\n' = ls.length - 1 := by
  intro ls
  induction ls with
  | nil => intro h; exact absurd rfl h
  | cons l ls ih =>
    intro _ hno
    cases ls with
    | nil =>
      simp [joinWithNewline, List.count_eq_zero.mpr (hno l (by simp))]
    | cons l' ls' =>
      have hrec := ih (by simp) (fun x hx => hno x (List.mem_cons_of_mem l hx))
      show (l ++ '\n' :: joinWithNewline (l' :: ls')).count '\n' = (l' :: ls').length
      rw [List.count_append, List.count_cons, hrec,
        List.count_eq_zero.mpr (hno l (by simp))]
      simp [Nat.succ_sub_one]

/-! ## Claim C6 -/

/-- Claim C6: emitting a word-wrap record that also carries the keep-joined
(`__nosplitlines__`) marker writes exactly one record, and the number of
embedded newline characters in that record's final message equals the
wrapped line count minus one (the hypotheses ask for a record that formats
and an environment whose writes succeed, so the single emission
completes). -/
theorem claim6_keep_joined (env : Env) (r : LogRecord)
    (hw : ∀ sid t, env.write sid t = none)
    (htw : r.textwrap = true) (hns : r.nosplitlines = true)
    (hfmt : r.raw = true ∨ KnownLevel r.levelno) (hmsg : r.msg ≠ "") :
    (ConsoleLogger.emit env r).outputs.length = 1 ∧
    (ConsoleLogger.emit env r).record.msg.toList.count '\n' =
      (textwrapLines r.msg).length - 1 := by
  have hbody : ConsoleLogger.emitBody env r =
      ConsoleLogger.emitLoop env r (ConsoleLogger.textwrapEmitLines r) := by
    unfold ConsoleLogger.emitBody
    rw [htw]
    simp only [if_true]
    rfl
  have hlines : ConsoleLogger.textwrapEmitLines r =
      [String.mk (joinWithNewline (textwrapLinesList r.msg.toList))] := by
    unfold ConsoleLogger.textwrapEmitLines
    rw [hns]
    simp only [if_true]
  obtain ⟨h1, _, h3⟩ :=
    emitLoop_ok env hw (ConsoleLogger.textwrapEmitLines r) r hfmt
  constructor
  · rw [emit_outputs, hbody, h1, hlines]
    rfl
  · rw [emit_record, hbody, h3, hlines]
    show (String.mk (joinWithNewline (textwrapLinesList r.msg.toList))).toList.count '\n' =
      (textwrapLines r.msg).length - 1
    have hne := textwrapLinesList_ne_nil r.msg.toList (toList_ne_nil r.msg hmsg)
    have hcount := count_nl_joinWithNewline (textwrapLinesList r.msg.toList) hne
      (fun l hl => textwrapLinesList_no_nl r.msg.toList l hl)
    rw [show (String.mk (joinWithNewline (textwrapLinesList r.msg.toList))).toList =
      joinWithNewline (textwrapLinesList r.msg.toList) from rfl, hcount]
    unfold textwrapLines
    rw [List.length_map]

/-- Witness for C6: a concrete two-line wrap joined with one newline. -/
theorem claim6_keep_joined_witness :
    (ConsoleLogger.emit envOk rTWJ).outputs.length = 1 ∧
    (ConsoleLogger.emit envOk rTWJ).record.msg.toList.count '\n' =
      (textwrapLines rTWJ.msg).length - 1 :=
  claim6_keep_joined envOk rTWJ (fun _ _ => rfl) rfl rfl
    (Or.inr (Or.inr (Or.inl rfl))) (by decide)

/-! ## Line length bounds (claim C5, part 1) -/

/-- `sumLen` distributes over append. -/
theorem sumLen_append (a b : List (List Char)) : sumLen (a ++ b) = sumLen a + sumLen b := by
  simp [sumLen]

/-- The inner loop's final length is the starting length plus the popped
chunks' total length. -/
theorem takeFits_len : ∀ (l : List (List Char)) (n : Nat),
    (takeFits n l).2.1 = n + sumLen (takeFits n l).1 := by
  intro l
  induction l with
  | nil => intro n; simp [takeFits, sumLen]
  | cons ch cs ih =>
    intro n
    by_cases h : n + ch.length ≤ 60
    · rw [takeFits_pos n ch cs h]
      dsimp only
      rw [ih (n + ch.length)]
      simp [sumLen]
      omega
    · rw [takeFits_neg h]
      simp [sumLen]

/-- The inner loop never exceeds the width. -/
theorem takeFits_le : ∀ (l : List (List Char)) (n : Nat), n ≤ 60 →
    (takeFits n l).2.1 ≤ 60 := by
  intro l
  induction l with
  | nil => intro n h; exact h
  | cons ch cs ih =>
    intro n h
    by_cases hf : n + ch.length ≤ 60
    · rw [takeFits_pos n ch cs hf]
      exact ih (n + ch.length) hf
    · rw [takeFits_neg hf]
      exact h

/-- The trailing-whitespace deletion cannot lengthen the current line. -/
theorem sumLen_dropTrailingWs_le (cur : List (List Char)) :
    sumLen (dropTrailingWs cur) ≤ sumLen cur := by
  unfold dropTrailingWs
  cases h : cur.getLast? with
  | none => exact Nat.le_refl _
  | some lc =>
    dsimp only
    by_cases hws : isWsChunk lc = true
    · rw [if_pos hws]
      obtain ⟨ys, rfl⟩ := List.getLast?_eq_some_iff.mp h
      have h1 : (ys ++ [lc]).dropLast = ys := by simp
      rw [h1, sumLen_append]
      exact Nat.le_add_right _ _
    · rw [if_neg hws]

/-- Every line emitted by a `wrapStep` is at most 60 characters long. -/
theorem wrapStep_line_le (chunks : List (List Char)) (ln : List Char)
    (h : (wrapStep chunks).1 = some ln) : ln.length ≤ 60 := by
  unfold wrapStep at h
  rcases ht : takeFits 0 chunks with ⟨cur, len, rest⟩
  rw [ht] at h
  have hlen : len = sumLen cur := by
    have := takeFits_len chunks 0
    rw [ht] at this
    simpa using this
  have hle : len ≤ 60 := by
    have := takeFits_le chunks 0 (by omega)
    rw [ht] at this
    exact this
  have hcur2 : sumLen (addLongWord (cur, len, rest)).1 ≤ 60 := by
    cases rest with
    | nil => simpa [addLongWord, ← hlen] using hle
    | cons r0 rs =>
      by_cases h60 : 60 < r0.length
      · simp only [addLongWord, if_pos h60]
        rw [sumLen_append]
        have htake : sumLen [r0.take (60 - len)] ≤ 60 - len := by
          simp [sumLen, List.length_take]
        omega
      · simpa [addLongWord, if_neg h60, ← hlen] using hle
  rcases hlw : addLongWord (cur, len, rest) with ⟨cur2, rest2⟩
  rw [hlw] at h hcur2
  dsimp only at h hcur2
  cases hd : dropTrailingWs cur2 with
  | nil => rw [hd] at h; simp at h
  | cons x xs =>
    rw [hd] at h
    dsimp only at h
    have hln : (x :: xs).flatten = ln := by simpa using h
    subst hln
    have hsub : sumLen (x :: xs) ≤ sumLen cur2 := hd ▸ sumLen_dropTrailingWs_le cur2
    rw [List.length_flatten]
    exact Nat.le_trans hsub hcur2

/-- Every line produced by the outer wrapping loop is at most 60
characters long. -/
theorem wrapOuterFuel_le : ∀ (fuel : Nat) (chunks : List (List Char)) (b : Bool),
    ∀ ln ∈ wrapOuterFuel fuel chunks b, ln.length ≤ 60 := by
  intro fuel
  induction fuel with
  | zero => intro chunks b ln h; simp [wrapOuterFuel] at h
  | succ fuel ih =>
    intro chunks b ln h
    unfold wrapOuterFuel at h
    cases hd : dropTopWs b chunks with
    | nil => rw [hd] at h; simp at h
    | cons c0 cs =>
      rw [hd] at h
      dsimp only at h
      rcases hws : wrapStep (c0 :: cs) with ⟨ln?, rest2⟩
      rw [hws] at h
      cases ln? with
      | none =>
        dsimp only at h
        exact ih rest2 b ln h
      | some l0 =>
        dsimp only at h
        rcases List.mem_cons.mp h with rfl | h
        · exact wrapStep_line_le (c0 :: cs) ln (by rw [hws])
        · exact ih rest2 true ln h

/-- Every wrapped output line of any message is at most 60 characters. -/
theorem textwrapLines_le (msg : String) : ∀ line ∈ textwrapLines msg,
    line.length ≤ 60 := by
  intro line hline
  unfold textwrapLines at hline
  obtain ⟨ll, hll, rfl⟩ := List.mem_map.mp hline
  show (String.mk ll).length ≤ 60
  have hlen : (String.mk ll).length = ll.length := rfl
  rw [hlen]
  unfold textwrapLinesList at hll
  obtain ⟨w, hw, hlw⟩ := List.mem_flatten.mp hll
  obtain ⟨piece, hp, rfl⟩ := List.mem_map.mp hw
  unfold pyWrap at hlw
  cases hq : pyWrapChunks (splitChunks (pyExpandtabs piece)) with
  | nil =>
    rw [hq] at hlw
    simp only [List.mem_singleton] at hlw
    subst hlw
    simp
  | cons a as =>
    rw [hq] at hlw
    dsimp only at hlw
    have hmem : ll ∈ wrapOuterFuel
        (chunksMeasure (splitChunks (pyExpandtabs piece)) + 1)
        (splitChunks (pyExpandtabs piece)) false := by
      show ll ∈ pyWrapChunks (splitChunks (pyExpandtabs piece))
      rw [hq]
      exact hlw
    exact wrapOuterFuel_le _ _ false ll hmem

/-! ## Measure and conservation lemmas (claim C5, part 2) -/

/-- `chunksMeasure` of a cons. -/
theorem chunksMeasure_cons (ch : List Char) (cs : List (List Char)) :
    chunksMeasure (ch :: cs) = ch.length + 1 + chunksMeasure cs := rfl

/-- The inner greedy loop does not grow the remaining chunk list. -/
theorem takeFits_measure_le : ∀ (l : List (List Char)) (n : Nat),
    chunksMeasure (takeFits n l).2.2 ≤ chunksMeasure l := by
  intro l
  induction l with
  | nil => intro n; exact Nat.le_refl _
  | cons ch cs ih =>
    intro n
    by_cases h : n + ch.length ≤ 60
    · rw [takeFits_pos n ch cs h]
      dsimp only
      calc chunksMeasure (takeFits (n + ch.length) cs).2.2
          ≤ chunksMeasure cs := ih _
        _ ≤ chunksMeasure (ch :: cs) := by rw [chunksMeasure_cons]; omega
    · rw [takeFits_neg h]

/-- The chunk remainder of a `wrapStep` ignores the trailing-whitespace
deletion. -/
theorem wrapStep_snd (chunks : List (List Char)) :
    (wrapStep chunks).2 = (addLongWord (takeFits 0 chunks)).2 := by
  unfold wrapStep
  rcases addLongWord (takeFits 0 chunks) with ⟨cur2, rest2⟩
  dsimp only
  cases dropTrailingWs cur2 <;> rfl

/-- The long-word handler does not grow the remaining chunk list. -/
theorem addLongWord_measure (cur : List (List Char)) (len : Nat)
    (rest : List (List Char)) :
    chunksMeasure (addLongWord (cur, len, rest)).2 ≤ chunksMeasure rest := by
  cases rest with
  | nil => exact Nat.le_refl _
  | cons r0 rs =>
    by_cases h60 : 60 < r0.length
    · simp only [addLongWord, if_pos h60]
      rw [chunksMeasure_cons, chunksMeasure_cons]
      have := List.length_drop (60 - len) r0
      omega
    · simp only [addLongWord, if_neg h60]
      exact Nat.le_refl _

/-- Each iteration of the outer loop strictly shrinks the chunk measure, so
the fuel supplied by `pyWrapChunks` is always sufficient. -/
theorem wrapStep_measure_lt (chunks : List (List Char)) (hne : chunks ≠ []) :
    chunksMeasure (wrapStep chunks).2 < chunksMeasure chunks := by
  rw [wrapStep_snd]
  cases chunks with
  | nil => exact absurd rfl hne
  | cons ch cs =>
    by_cases h : 0 + ch.length ≤ 60
    · rw [takeFits_pos 0 ch cs h]
      have h1 := addLongWord_measure (ch :: (takeFits (0 + ch.length) cs).1)
        (takeFits (0 + ch.length) cs).2.1 (takeFits (0 + ch.length) cs).2.2
      have h2 := takeFits_measure_le cs (0 + ch.length)
      rw [chunksMeasure_cons]
      omega
    · rw [takeFits_neg h]
      have h60 : 60 < ch.length := by omega
      simp only [addLongWord, if_pos h60]
      rw [chunksMeasure_cons, chunksMeasure_cons]
      have hd := List.length_drop (60 - 0) ch
      omega

/-- The leading-whitespace deletion does not grow the chunk list. -/
theorem dropTopWs_measure_le (b : Bool) (chunks : List (List Char)) :
    chunksMeasure (dropTopWs b chunks) ≤ chunksMeasure chunks := by
  unfold dropTopWs
  cases b with
  | false => exact Nat.le_refl _
  | true =>
    cases chunks with
    | nil => exact Nat.le_refl _
    | cons c0 rest0 =>
      dsimp only
      by_cases hws : isWsChunk c0 = true
      · rw [if_pos hws, chunksMeasure_cons]
        omega
      · rw [if_neg hws]

/-- A non-whitespace character survives the leading-whitespace deletion. -/
theorem dropTopWs_conserve (b : Bool) (chunks : List (List Char)) (c : Char)
    (hnw : isPySpace c = false) (h : ∃ ch ∈ chunks, c ∈ ch) :
    ∃ ch ∈ dropTopWs b chunks, c ∈ ch := by
  unfold dropTopWs
  cases b with
  | false => exact h
  | true =>
    cases chunks with
    | nil => exact h
    | cons c0 rest0 =>
      dsimp only
      by_cases hws : isWsChunk c0 = true
      · rw [if_pos hws]
        obtain ⟨ch, hch, hc⟩ := h
        rcases List.mem_cons.mp hch with rfl | h1
        · have := List.all_eq_true.mp hws c hc
          rw [this] at hnw
          cases hnw
        · exact ⟨ch, h1, hc⟩
      · rw [if_neg hws]
        exact h

/-- A non-whitespace character survives the trailing-whitespace deletion. -/
theorem dropTrailingWs_conserve (cur : List (List Char)) (c : Char)
    (hnw : isPySpace c = false) (h : ∃ ch ∈ cur, c ∈ ch) :
    ∃ ch ∈ dropTrailingWs cur, c ∈ ch := by
  unfold dropTrailingWs
  cases hl : cur.getLast? with
  | none => exact h
  | some lc =>
    dsimp only
    by_cases hws : isWsChunk lc = true
    · rw [if_pos hws]
      obtain ⟨ys, rfl⟩ := List.getLast?_eq_some_iff.mp hl
      rw [show (ys ++ [lc]).dropLast = ys by simp]
      obtain ⟨ch, hch, hc⟩ := h
      rcases List.mem_append.mp hch with h1 | h1
      · exact ⟨ch, h1, hc⟩
      · simp only [List.mem_singleton] at h1
        subst h1
        have := List.all_eq_true.mp hws c hc
        rw [this] at hnw
        cases hnw
    · rw [if_neg hws]
      exact h

/-- A non-whitespace character of the chunks ends up on the emitted line or
in the chunk remainder of a `wrapStep`. -/
theorem wrapStep_conserve (chunks : List (List Char)) (c : Char)
    (hnw : isPySpace c = false) (h : ∃ ch ∈ chunks, c ∈ ch) :
    (∃ ln, (wrapStep chunks).1 = some ln ∧ c ∈ ln) ∨
    ∃ ch ∈ (wrapStep chunks).2, c ∈ ch := by
  unfold wrapStep
  rcases ht : takeFits 0 chunks with ⟨cur, len, rest⟩
  have happ := takeFits_append chunks 0
  rw [ht] at happ
  dsimp only at happ
  have hsplit : (∃ ch ∈ cur, c ∈ ch) ∨ (∃ ch ∈ rest, c ∈ ch) := by
    obtain ⟨ch, hch, hc⟩ := h
    rw [← happ] at hch
    rcases List.mem_append.mp hch with h1 | h1
    · exact Or.inl ⟨ch, h1, hc⟩
    · exact Or.inr ⟨ch, h1, hc⟩
  have hstep : (∃ ch ∈ (addLongWord (cur, len, rest)).1, c ∈ ch) ∨
      (∃ ch ∈ (addLongWord (cur, len, rest)).2, c ∈ ch) := by
    cases rest with
    | nil =>
      rcases hsplit with h1 | h1
      · exact Or.inl (by simpa [addLongWord] using h1)
      · obtain ⟨ch, hch, _⟩ := h1
        simp at hch
    | cons r0 rs =>
      by_cases h60 : 60 < r0.length
      · simp only [addLongWord, if_pos h60]
        rcases hsplit with h1 | h1
        · obtain ⟨ch, hch, hc⟩ := h1
          exact Or.inl ⟨ch, List.mem_append_left _ hch, hc⟩
        · obtain ⟨ch, hch, hc⟩ := h1
          rcases List.mem_cons.mp hch with rfl | h2
          · rw [← List.take_append_drop (60 - len) ch] at hc
            rcases List.mem_append.mp hc with h3 | h3
            · exact Or.inl ⟨ch.take (60 - len), by simp, h3⟩
            · exact Or.inr ⟨ch.drop (60 - len), by simp, h3⟩
          · exact Or.inr ⟨ch, by simp [h2], hc⟩
      · simp only [addLongWord, if_neg h60]
        exact hsplit
  rcases hlw : addLongWord (cur, len, rest) with ⟨cur2, rest2⟩
  rw [hlw] at hstep
  dsimp only at hstep ⊢
  rcases hstep with h1 | h1
  · have h2 := dropTrailingWs_conserve cur2 c hnw h1
    cases hd : dropTrailingWs cur2 with
    | nil =>
      rw [hd] at h2
      obtain ⟨ch, hch, _⟩ := h2
      simp at hch
    | cons x xs =>
      dsimp only
      left
      refine ⟨(x :: xs).flatten, rfl, ?_⟩
      rw [hd] at h2
      exact List.mem_flatten.mpr h2
  · cases hd : dropTrailingWs cur2 with
    | nil =>
      dsimp only
      exact Or.inr h1
    | cons x xs =>
      dsimp only
      exact Or.inr h1

/-- A non-whitespace character of the chunks appears on some line of the
outer loop's output, provided the fuel exceeds the measure. -/
theorem wrapOuterFuel_conserve : ∀ (fuel : Nat) (chunks : List (List Char)) (b : Bool)
    (c : Char), chunksMeasure chunks < fuel → isPySpace c = false →
    (∃ ch ∈ chunks, c ∈ ch) → ∃ ln ∈ wrapOuterFuel fuel chunks b, c ∈ ln := by
  intro fuel
  induction fuel with
  | zero => intro chunks b c hf _ _; exact absurd hf (Nat.not_lt_zero _)
  | succ fuel ih =>
    intro chunks b c hf hnw h
    unfold wrapOuterFuel
    have h1 := dropTopWs_conserve b chunks c hnw h
    have hm1 := dropTopWs_measure_le b chunks
    cases hd : dropTopWs b chunks with
    | nil =>
      rw [hd] at h1
      obtain ⟨ch, hch, _⟩ := h1
      simp at hch
    | cons c0 cs =>
      rw [hd] at h1 hm1
      dsimp only
      have hcons := wrapStep_conserve (c0 :: cs) c hnw h1
      have hlt := wrapStep_measure_lt (c0 :: cs) (by simp)
      rcases hws : wrapStep (c0 :: cs) with ⟨ln?, rest2⟩
      rw [hws] at hcons hlt
      dsimp only at hcons hlt
      cases ln? with
      | none =>
        dsimp only
        rcases hcons with ⟨ln, hln, _⟩ | h2
        · exact absurd hln (by simp)
        · exact ih rest2 b c (by omega) hnw h2
      | some l0 =>
        dsimp only
        rcases hcons with ⟨ln, hln, hc⟩ | h2
        · have hl0 : l0 = ln := by simpa using hln
          exact ⟨l0, List.mem_cons_self _ _, by rw [hl0]; exact hc⟩
        · obtain ⟨ln, hln, hc⟩ := ih rest2 true c (by omega) hnw h2
          exact ⟨ln, List.mem_cons_of_mem l0 hln, hc⟩

/-! ## The first wrapping iteration of a long message (claim C5, part 3) -/

/-- The value a `getLast?` returns is a member of the list. -/
theorem mem_of_getLast?_eq {α : Type} {l : List α} {a : α}
    (h : l.getLast? = some a) : a ∈ l := by
  obtain ⟨ys, rfl⟩ := List.getLast?_eq_some_iff.mp h
  simp

/-- A chunk with a non-whitespace member is not a whitespace chunk. -/
theorem isWsChunk_eq_false_of_mem (ch : List Char) (x : Char) (hx : x ∈ ch)
    (hnw : isPySpace x = false) : isWsChunk ch = false := by
  unfold isWsChunk
  cases hall : ch.all isPySpace with
  | false => rfl
  | true =>
    rw [List.all_eq_true.mp hall x hx] at hnw
    cases hnw

/-- The trailing-whitespace deletion cannot empty a current line whose
first chunk is not whitespace. -/
theorem dropTrailingWs_ne_nil (c0 : List Char) (tl : List (List Char))
    (hc0 : isWsChunk c0 = false) : dropTrailingWs (c0 :: tl) ≠ [] := by
  unfold dropTrailingWs
  cases hl : (c0 :: tl).getLast? with
  | none => exact absurd (List.getLast?_eq_none_iff.mp hl) (by simp)
  | some lc =>
    dsimp only
    by_cases hws : isWsChunk lc = true
    · rw [if_pos hws]
      cases tl with
      | nil =>
        have hlc : lc = c0 := by simpa using hl.symm
        rw [hlc] at hws
        rw [hws] at hc0
        cases hc0
      | cons y ys => simp
    · rw [if_neg hws]
      simp

/-- Unfolding a `wrapStep` whose current line survives the
trailing-whitespace deletion. -/
theorem wrapStep_eq (chunks cur2 rest2 : List (List Char))
    (hlw : addLongWord (takeFits 0 chunks) = (cur2, rest2))
    (x : List Char) (xs : List (List Char)) (hd : dropTrailingWs cur2 = x :: xs) :
    wrapStep chunks = (some ((x :: xs).flatten), rest2) := by
  unfold wrapStep
  rw [hlw]
  dsimp only
  rw [hd]

/-- The first iteration of the wrapping loop on a chunk list that starts
with a non-empty non-whitespace chunk, totals more than 60 characters, and
ends with a non-empty non-whitespace chunk: a line is emitted and the
remaining chunks still hold a non-whitespace character. -/
theorem wrapStep_first (c0 : List Char) (l' : List (List Char))
    (h0 : c0 ≠ []) (hnw : ∀ x ∈ c0, isPySpace x = false)
    (hsum : 60 < sumLen (c0 :: l'))
    (chl : List Char) (hlast : (c0 :: l').getLast? = some chl)
    (hchl : chl ≠ []) (hchlnw : ∀ x ∈ chl, isPySpace x = false) :
    ∃ ln rest2, wrapStep (c0 :: l') = (some ln, rest2) ∧
      ∃ ch ∈ rest2, ∃ cc ∈ ch, isPySpace cc = false := by
  obtain ⟨x0, hx0⟩ : ∃ x, x ∈ c0 := by
    cases c0 with
    | nil => exact absurd rfl h0
    | cons y ys => exact ⟨y, by simp⟩
  have hc0ws : isWsChunk c0 = false := isWsChunk_eq_false_of_mem c0 x0 hx0 (hnw x0 hx0)
  obtain ⟨a0, ha0⟩ : ∃ a, a ∈ chl := by
    cases chl with
    | nil => exact absurd rfl hchl
    | cons y ys => exact ⟨y, by simp⟩
  by_cases hfit : 0 + c0.length ≤ 60
  · rcases hts : takeFits 0 (c0 :: l') with ⟨cur, len, rest⟩
    have hKlen : len = sumLen cur := by
      have := takeFits_len (c0 :: l') 0
      rw [hts] at this
      simpa using this
    have hKle : len ≤ 60 := by
      have := takeFits_le (c0 :: l') 0 (by omega)
      rw [hts] at this
      exact this
    have happ : cur ++ rest = c0 :: l' := by
      have := takeFits_append (c0 :: l') 0
      rw [hts] at this
      exact this
    obtain ⟨tl, rfl⟩ : ∃ tl, cur = c0 :: tl := by
      have hp := takeFits_pos 0 c0 l' hfit
      rw [hts] at hp
      exact ⟨(takeFits (0 + c0.length) l').1, congrArg (fun t => t.1) hp⟩
    cases rest with
    | nil =>
      exfalso
      rw [List.append_nil] at happ
      rw [happ] at hKlen
      omega
    | cons r0 rs =>
      have hlast2 : (r0 :: rs).getLast? = some chl := by
        rw [← happ] at hlast
        rwa [List.getLast?_append_of_ne_nil _ (by simp)] at hlast
      by_cases h60 : 60 < r0.length
      · have hlw2 : addLongWord (c0 :: tl, len, r0 :: rs) =
            ((c0 :: tl) ++ [r0.take (60 - len)], r0.drop (60 - len) :: rs) := by
          simp only [addLongWord, if_pos h60]
        cases hd : dropTrailingWs ((c0 :: tl) ++ [r0.take (60 - len)]) with
        | nil =>
          exfalso
          rw [List.cons_append] at hd
          exact dropTrailingWs_ne_nil c0 _ hc0ws hd
        | cons x xs =>
          refine ⟨(x :: xs).flatten, r0.drop (60 - len) :: rs,
            wrapStep_eq (c0 :: l') _ _ (by rw [hts]; exact hlw2) x xs hd, ?_⟩
          cases rs with
          | nil =>
            have hr0 : chl = r0 := by simpa using hlast2.symm
            have hdropne : r0.drop (60 - len) ≠ [] := by
              intro hc
              have := List.length_drop (60 - len) r0
              rw [hc] at this
              simp at this
              omega
            obtain ⟨y, hy⟩ : ∃ y, y ∈ r0.drop (60 - len) := by
              cases hq : r0.drop (60 - len) with
              | nil => exact absurd hq hdropne
              | cons z zs => exact ⟨z, by simp⟩
            refine ⟨r0.drop (60 - len), by simp, y, hy, ?_⟩
            apply hchlnw
            rw [hr0]
            exact List.mem_of_mem_drop hy
          | cons r1 rs' =>
            have hin : chl ∈ r1 :: rs' := by
              rw [List.getLast?_cons_cons] at hlast2
              exact mem_of_getLast?_eq hlast2
            exact ⟨chl, List.mem_cons_of_mem _ hin, a0, ha0, hchlnw a0 ha0⟩
      · have hlw2 : addLongWord (c0 :: tl, len, r0 :: rs) = (c0 :: tl, r0 :: rs) := by
          simp only [addLongWord, if_neg h60]
        cases hd : dropTrailingWs (c0 :: tl) with
        | nil => exact absurd hd (dropTrailingWs_ne_nil c0 tl hc0ws)
        | cons x xs =>
          exact ⟨(x :: xs).flatten, r0 :: rs,
            wrapStep_eq (c0 :: l') _ _ (by rw [hts]; exact hlw2) x xs hd,
            chl, mem_of_getLast?_eq hlast2, a0, ha0, hchlnw a0 ha0⟩
  · have h60 : 60 < c0.length := by omega
    have hts : takeFits 0 (c0 :: l') = ([], 0, c0 :: l') := takeFits_neg hfit
    have hlw2 : addLongWord ([], 0, c0 :: l') =
        ([c0.take (60 - 0)], c0.drop (60 - 0) :: l') := by
      simp only [addLongWord, if_pos h60]
      rw [List.nil_append]
    have htake_ne : c0.take (60 - 0) ≠ [] := by
      intro hc
      have := List.length_take (60 - 0) c0
      rw [hc] at this
      simp at this
      omega
    have htake_ws : isWsChunk (c0.take (60 - 0)) = false := by
      obtain ⟨y, hy⟩ : ∃ y, y ∈ c0.take (60 - 0) := by
        cases hq : c0.take (60 - 0) with
        | nil => exact absurd hq htake_ne
        | cons z zs => exact ⟨z, by simp⟩
      exact isWsChunk_eq_false_of_mem _ y hy (hnw y (List.mem_of_mem_take hy))
    cases hd : dropTrailingWs [c0.take (60 - 0)] with
    | nil => exact absurd hd (dropTrailingWs_ne_nil _ [] htake_ws)
    | cons x xs =>
      have hdropne : c0.drop (60 - 0) ≠ [] := by
        intro hc
        have := List.length_drop (60 - 0) c0
        rw [hc] at this
        simp at this
        omega
      obtain ⟨y, hy⟩ : ∃ y, y ∈ c0.drop (60 - 0) := by
        cases hq : c0.drop (60 - 0) with
        | nil => exact absurd hq hdropne
        | cons z zs => exact ⟨z, by simp⟩
      exact ⟨(x :: xs).flatten, c0.drop (60 - 0) :: l',
        wrapStep_eq (c0 :: l') _ _ (by rw [hts]; exact hlw2) x xs hd,
        c0.drop (60 - 0), by simp, y, hy, hnw y (List.mem_of_mem_drop hy)⟩

/-! ## Structure of the munged text and its chunks (claim C5, part 4) -/

/-- Tab expansion never shortens the text (each tab becomes at least one
space). -/
theorem pyExpandtabsAux_length_le : ∀ (l : List Char) (col : Nat),
    l.length ≤ (pyExpandtabsAux col l).length := by
  intro l
  induction l with
  | nil => intro col; simp [pyExpandtabsAux]
  | cons x xs ih =>
    intro col
    unfold pyExpandtabsAux
    by_cases h1 : x = '\t'
    · rw [if_pos h1]
      rw [List.length_append, List.length_replicate]
      have h2 : col % 8 < 8 := Nat.mod_lt col (by omega)
      have h3 := ih (col + (8 - col % 8))
      simp only [List.length_cons]
      omega
    · rw [if_neg h1]
      by_cases h2 : x = '\n' ∨ x = '\r'
      · rw [if_pos h2]
        simpa using ih 0
      · rw [if_neg h2]
        simpa using ih (col + 1)

/-- Tab expansion of a non-empty text is non-empty. -/
theorem pyExpandtabsAux_ne_nil (l : List Char) (col : Nat) (h : l ≠ []) :
    pyExpandtabsAux col l ≠ [] := by
  intro hc
  have h1 := pyExpandtabsAux_length_le l col
  rw [hc] at h1
  simp at h1
  exact h h1

/-- A non-whitespace character passes through tab expansion unchanged. -/
theorem pyExpandtabsAux_cons_of_not_ws (c : Char) (cs : List Char) (col : Nat)
    (h : isPySpace c = false) :
    pyExpandtabsAux col (c :: cs) = c :: pyExpandtabsAux (col + 1) cs := by
  have h1 : ¬c = '\t' := by
    intro hc
    rw [hc] at h
    simp [isPySpace] at h
  have h2 : ¬(c = '\n' ∨ c = '\r') := by
    rintro (hc | hc) <;> (rw [hc] at h; simp [isPySpace] at h)
  conv_lhs => rw [pyExpandtabsAux]
  rw [if_neg h1, if_neg h2]

/-- Tab expansion preserves a non-whitespace final character. -/
theorem pyExpandtabsAux_getLast? : ∀ (l : List Char) (col : Nat) (a : Char),
    l.getLast? = some a → isPySpace a = false →
    (pyExpandtabsAux col l).getLast? = some a := by
  intro l
  induction l with
  | nil => intro col a h _; simp at h
  | cons x xs ih =>
    intro col a h hnw
    cases xs with
    | nil =>
      have hxa : x = a := by simpa using h
      subst hxa
      rw [pyExpandtabsAux_cons_of_not_ws x [] col hnw]
      rfl
    | cons y ys =>
      have hlast : (y :: ys).getLast? = some a := by
        rw [← List.getLast?_cons_cons]
        exact h
      unfold pyExpandtabsAux
      by_cases h1 : x = '\t'
      · rw [if_pos h1]
        rw [List.getLast?_append_of_ne_nil _ (pyExpandtabsAux_ne_nil _ _ (by simp))]
        exact ih _ a hlast hnw
      · rw [if_neg h1]
        by_cases h2 : x = '\n' ∨ x = '\r'
        · rw [if_pos h2]
          rw [show x :: pyExpandtabsAux 0 (y :: ys) = [x] ++ pyExpandtabsAux 0 (y :: ys)
            from rfl]
          rw [List.getLast?_append_of_ne_nil _ (pyExpandtabsAux_ne_nil _ _ (by simp))]
          exact ih 0 a hlast hnw
        · rw [if_neg h2]
          rw [show x :: pyExpandtabsAux (col + 1) (y :: ys) =
            [x] ++ pyExpandtabsAux (col + 1) (y :: ys) from rfl]
          rw [List.getLast?_append_of_ne_nil _ (pyExpandtabsAux_ne_nil _ _ (by simp))]
          exact ih (col + 1) a hlast hnw

/-- `splitlines` on break-free text yields the single whole line. -/
theorem pySplitlinesAux_clean : ∀ (cs acc : List Char),
    (∀ c ∈ cs, c ≠ '\n' ∧ c ≠ '\r') → (acc ≠ [] ∨ cs ≠ []) →
    pySplitlinesAux false acc cs = [acc.reverse ++ cs] := by
  intro cs
  induction cs with
  | nil =>
    intro acc _ hne
    unfold pySplitlinesAux
    have ha : ¬acc.isEmpty = true := by
      rcases hne with h1 | h1
      · simpa using h1
      · exact absurd rfl h1
    rw [if_neg ha]
    simp
  | cons x xs ih =>
    intro acc h _
    have hx := h x (by simp)
    unfold pySplitlinesAux
    simp only [Bool.false_and, Bool.false_eq_true, if_false]
    rw [if_neg (by simpa using hx.1), if_neg (by simpa using hx.2)]
    rw [ih (x :: acc) (fun c hc => h c (by simp [hc])) (Or.inl (by simp))]
    simp

/-- Python `str.splitlines()` of a non-empty break-free string is the
string itself. -/
theorem pySplitlines_single (l : List Char) (hne : l ≠ [])
    (hnl : '\n' ∉ l) (hcr : '\r' ∉ l) : pySplitlines l = [l] := by
  unfold pySplitlines
  rw [pySplitlinesAux_clean l []
    (fun c hc => ⟨by rintro rfl; exact hnl hc, by rintro rfl; exact hcr hc⟩)
    (Or.inr hne)]
  simp

/-- `_emit_textwrap`'s line list for a break-free message is just the
wrapped message. -/
theorem textwrapLinesList_eq_pyWrap (ml : List Char) (hne : ml ≠ [])
    (hnl : '\n' ∉ ml) (hcr : '\r' ∉ ml) : textwrapLinesList ml = pyWrap ml := by
  unfold textwrapLinesList
  rw [pySplitlines_single ml hne hnl hcr]
  simp

/-- Chunks produced by `splitChunks` are never empty. -/
theorem splitChunks_ne_nil_mem : ∀ (l : List Char), ∀ ch ∈ splitChunks l, ch ≠ [] := by
  intro l
  induction l with
  | nil => intro ch h; simp [splitChunks] at h
  | cons c cs ih =>
    intro ch hch
    unfold splitChunks at hch
    cases h : splitChunks cs with
    | nil =>
      rw [h] at hch
      dsimp only at hch
      simp only [List.mem_singleton] at hch
      subst hch
      simp
    | cons ch0 rest =>
      cases ch0 with
      | nil => exact absurd rfl (ih [] (h ▸ List.mem_cons_self [] rest))
      | cons d ds =>
        rw [h] at hch
        dsimp only at hch
        by_cases hcls : isPySpace c = isPySpace d
        · rw [if_pos hcls] at hch
          rcases List.mem_cons.mp hch with rfl | h2
          · simp
          · exact ih ch (h ▸ List.mem_cons_of_mem _ h2)
        · rw [if_neg hcls] at hch
          rcases List.mem_cons.mp hch with rfl | h2
          · simp
          · exact ih ch (h ▸ h2)

/-- The chunk decomposition of a non-empty string starts with a chunk led
by the string's first character. -/
theorem splitChunks_cons_eq (c : Char) (cs : List Char) :
    ∃ ds rest, splitChunks (c :: cs) = (c :: ds) :: rest := by
  unfold splitChunks
  cases h : splitChunks cs with
  | nil => exact ⟨[], [], rfl⟩
  | cons ch0 rest =>
    cases ch0 with
    | nil => exact ⟨[], [] :: rest, rfl⟩
    | cons d ds =>
      by_cases hcls : isPySpace c = isPySpace d
      · exact ⟨d :: ds, rest, by dsimp only; rw [if_pos hcls]⟩
      · exact ⟨[], (d :: ds) :: rest, by dsimp only; rw [if_neg hcls]⟩

/-- Each chunk is homogeneous: all its characters are of one whitespace
class. -/
theorem splitChunks_homog : ∀ (l : List Char), ∀ ch ∈ splitChunks l,
    ∀ x ∈ ch, ∀ y ∈ ch, isPySpace x = isPySpace y := by
  intro l
  induction l with
  | nil => intro ch h; simp [splitChunks] at h
  | cons c cs ih =>
    intro ch hch
    unfold splitChunks at hch
    cases h : splitChunks cs with
    | nil =>
      rw [h] at hch
      dsimp only at hch
      simp only [List.mem_singleton] at hch
      subst hch
      intro x hx y hy
      simp only [List.mem_singleton] at hx hy
      rw [hx, hy]
    | cons ch0 rest =>
      cases ch0 with
      | nil => exact absurd rfl (splitChunks_ne_nil_mem cs [] (h ▸ List.mem_cons_self [] rest))
      | cons d ds =>
        rw [h] at hch
        dsimp only at hch
        by_cases hcls : isPySpace c = isPySpace d
        · rw [if_pos hcls] at hch
          rcases List.mem_cons.mp hch with rfl | h2
          · have hh := ih (d :: ds) (h ▸ List.mem_cons_self _ _)
            have key : ∀ z ∈ c :: d :: ds, isPySpace z = isPySpace d := by
              intro z hz
              rcases List.mem_cons.mp hz with rfl | hz2
              · exact hcls
              · exact hh z hz2 d (by simp)
            intro x hx y hy
            rw [key x hx, key y hy]
          · exact ih ch (h ▸ List.mem_cons_of_mem _ h2)
        · rw [if_neg hcls] at hch
          rcases List.mem_cons.mp hch with rfl | h2
          · intro x hx y hy
            simp only [List.mem_singleton] at hx hy
            rw [hx, hy]
          · exact ih ch (h ▸ h2)

/-- The last character of a concatenation of non-empty chunks is the last
character of the last chunk. -/
theorem flatten_getLast? : ∀ (ls : List (List Char)), (∀ x ∈ ls, x ≠ []) →
    ls.flatten.getLast? = (ls.getLastD []).getLast? := by
  intro ls
  induction ls with
  | nil => intro _; rfl
  | cons x xs ih =>
    intro hne
    cases xs with
    | nil => simp
    | cons y ys =>
      have hflat_ne : (y :: ys).flatten ≠ [] := by
        have hy := hne y (by simp)
        simp only [List.flatten_cons]
        intro hc
        exact hy (List.append_eq_nil.mp hc).1
      rw [List.flatten_cons, List.getLast?_append_of_ne_nil _ hflat_ne]
      rw [ih (fun z hz => hne z (List.mem_cons_of_mem _ hz))]
      simp [List.getLastD_cons]

/-- The leading-whitespace deletion is the identity before any line has
been emitted. -/
theorem dropTopWs_false (chunks : List (List Char)) : dropTopWs false chunks = chunks := by
  unfold dropTopWs
  cases chunks <;> rfl

/-- Wrapping a message longer than 60 characters that neither begins nor
ends with a whitespace character yields at least two lines. -/
theorem pyWrap_two_lines (ml : List Char)
    (h60 : 60 < ml.length)
    (hh : isPySpace (ml.headD ' ') = false)
    (hl : isPySpace (ml.getLastD ' ') = false) :
    2 ≤ (pyWrap ml).length := by
  cases ml with
  | nil => simp at h60
  | cons m0 ms =>
    have hh' : isPySpace m0 = false := by simpa using hh
    set mg := pyExpandtabs (m0 :: ms) with hmg
    have hlast0 : (m0 :: ms).getLast? = some ((m0 :: ms).getLastD ' ') := by
      rw [List.getLastD_eq_getLast?]
      cases hq : (m0 :: ms).getLast? with
      | none => exact absurd (List.getLast?_eq_none_iff.mp hq) (by simp)
      | some a => rfl
    have hanw : isPySpace ((m0 :: ms).getLastD ' ') = false := hl
    have hmglast : mg.getLast? = some ((m0 :: ms).getLastD ' ') := by
      rw [hmg]
      exact pyExpandtabsAux_getLast? (m0 :: ms) 0 _ hlast0 hanw
    have hmglen : 60 < mg.length := by
      have hlen := pyExpandtabsAux_length_le (m0 :: ms) 0
      rw [hmg]
      unfold pyExpandtabs
      omega
    have hmg_cons : mg = m0 :: pyExpandtabsAux (0 + 1) ms := by
      rw [hmg]
      exact pyExpandtabsAux_cons_of_not_ws m0 ms 0 hh'
    obtain ⟨ds, rest, hchunks⟩ := splitChunks_cons_eq m0 (pyExpandtabsAux (0 + 1) ms)
    have hch_eq : splitChunks mg = (m0 :: ds) :: rest := by
      rw [hmg_cons]
      exact hchunks
    have hhead_mem : (m0 :: ds) ∈ splitChunks mg := by
      rw [hch_eq]
      simp
    have hhead_nw : ∀ x ∈ m0 :: ds, isPySpace x = false := by
      intro x hx
      have := splitChunks_homog mg (m0 :: ds) hhead_mem x hx m0 (by simp)
      rw [this, hh']
    have hsumlen : sumLen (splitChunks mg) = mg.length := by
      rw [sumLen, ← List.length_flatten, splitChunks_flatten]
    have hsum : 60 < sumLen (splitChunks mg) := by omega
    have hch_ne : splitChunks mg ≠ [] := by
      rw [hch_eq]
      simp
    have hlast_some : (splitChunks mg).getLast? = some ((splitChunks mg).getLastD []) := by
      rw [List.getLastD_eq_getLast?]
      cases hq : (splitChunks mg).getLast? with
      | none => exact absurd (List.getLast?_eq_none_iff.mp hq) hch_ne
      | some chx => rfl
    have hchl_mem : (splitChunks mg).getLastD [] ∈ splitChunks mg :=
      mem_of_getLast?_eq hlast_some
    have hchl_ne : (splitChunks mg).getLastD [] ≠ [] :=
      splitChunks_ne_nil_mem mg _ hchl_mem
    have hfl_last : mg.getLast? = ((splitChunks mg).getLastD []).getLast? := by
      have := flatten_getLast? (splitChunks mg) (splitChunks_ne_nil_mem mg)
      rw [splitChunks_flatten] at this
      exact this
    have hchl_last : ((splitChunks mg).getLastD []).getLast? =
        some ((m0 :: ms).getLastD ' ') := by
      rw [← hfl_last]
      exact hmglast
    have ha_mem : (m0 :: ms).getLastD ' ' ∈ (splitChunks mg).getLastD [] :=
      mem_of_getLast?_eq hchl_last
    have hchl_nw : ∀ x ∈ (splitChunks mg).getLastD [], isPySpace x = false := by
      intro x hx
      have := splitChunks_homog mg _ hchl_mem x hx _ ha_mem
      rw [this, hanw]
    have hsum' : 60 < sumLen ((m0 :: ds) :: rest) := by
      rw [← hch_eq]
      exact hsum
    have hlast' : ((m0 :: ds) :: rest).getLast? = some ((splitChunks mg).getLastD []) := by
      rw [← hch_eq]
      exact hlast_some
    have hchl_ne' := hchl_ne
    obtain ⟨ln, rest2, hstep, hc_rest2⟩ :=
      wrapStep_first (m0 :: ds) rest (by simp) hhead_nw hsum' _ hlast' hchl_ne'
        hchl_nw
    have hμlt : chunksMeasure rest2 < chunksMeasure (splitChunks mg) := by
      have hwm := wrapStep_measure_lt ((m0 :: ds) :: rest) (by simp)
      rw [hstep] at hwm
      dsimp only at hwm
      rw [hch_eq]
      exact hwm
    obtain ⟨ch2, hch2, cc, hcc, hccnw⟩ := hc_rest2
    obtain ⟨ln2, hln2, -⟩ := wrapOuterFuel_conserve (chunksMeasure (splitChunks mg))
      rest2 true cc hμlt hccnw ⟨ch2, hch2, hcc⟩
    have hunfold : wrapOuterFuel (chunksMeasure (splitChunks mg) + 1)
        (splitChunks mg) false =
        ln :: wrapOuterFuel (chunksMeasure (splitChunks mg)) rest2 true := by
      conv_lhs => rw [wrapOuterFuel]
      rw [dropTopWs_false, hch_eq]
      dsimp only
      rw [hstep]
    have h2 : 2 ≤ (pyWrapChunks (splitChunks mg)).length := by
      show 2 ≤ (wrapOuterFuel (chunksMeasure (splitChunks mg) + 1)
        (splitChunks mg) false).length
      rw [hunfold]
      have hpos := List.length_pos.mpr (List.ne_nil_of_mem hln2)
      simp only [List.length_cons]
      omega
    unfold pyWrap
    cases hq : pyWrapChunks (splitChunks (pyExpandtabs (m0 :: ms))) with
    | nil =>
      rw [← hmg] at hq
      rw [hq] at h2
      simp at h2
    | cons p ps =>
      dsimp only
      rw [← hmg] at hq
      rw [hq] at h2
      exact h2

/-! ## No line break at a hyphen (claim C5, part 5) -/

/-- For a homogeneous non-empty chunk, whitespace-ness is decided by the
head character. -/
theorem isWsChunk_head (c : Char) (tl : List Char)
    (h : ∀ x ∈ c :: tl, ∀ y ∈ c :: tl, isPySpace x = isPySpace y) :
    isWsChunk (c :: tl) = isPySpace c := by
  cases hc : isPySpace c with
  | false => exact isWsChunk_eq_false_of_mem _ c (by simp) hc
  | true =>
    show (c :: tl).all isPySpace = true
    apply List.all_eq_true.mpr
    intro x hx
    exact (h x hx c (by simp)).trans hc

/-- Adjacent chunks of `splitChunks` alternate between whitespace and
non-whitespace. -/
theorem splitChunks_chain' : ∀ (l : List Char),
    List.Chain' (fun a b => isWsChunk a ≠ isWsChunk b) (splitChunks l) := by
  intro l
  induction l with
  | nil => simp [splitChunks]
  | cons c cs ih =>
    unfold splitChunks
    cases h : splitChunks cs with
    | nil => simp
    | cons ch0 rest =>
      cases ch0 with
      | nil => exact absurd rfl (splitChunks_ne_nil_mem cs [] (h ▸ List.mem_cons_self [] rest))
      | cons d ds =>
        dsimp only
        rw [h] at ih
        have hh := splitChunks_homog cs (d :: ds) (h ▸ List.mem_cons_self _ _)
        by_cases hcls : isPySpace c = isPySpace d
        · rw [if_pos hcls]
          have hkey : ∀ z ∈ c :: d :: ds, isPySpace z = isPySpace d := by
            intro z hz
            rcases List.mem_cons.mp hz with rfl | hz2
            · exact hcls
            · exact hh z hz2 d (by simp)
          have hhomog : ∀ x ∈ c :: d :: ds, ∀ y ∈ c :: d :: ds,
              isPySpace x = isPySpace y := by
            intro x hx y hy
            rw [hkey x hx, hkey y hy]
          have hws_eq : isWsChunk (c :: d :: ds) = isWsChunk (d :: ds) := by
            rw [isWsChunk_head c (d :: ds) hhomog, isWsChunk_head d ds hh]
            exact hcls
          cases rest with
          | nil => simp
          | cons r1 rs =>
            obtain ⟨hR, hC⟩ := List.chain'_cons.mp ih
            exact List.chain'_cons.mpr ⟨by rw [hws_eq]; exact hR, hC⟩
        · rw [if_neg hcls]
          have hR : isWsChunk [c] ≠ isWsChunk (d :: ds) := by
            rw [isWsChunk_head c []
              (by intro x hx y hy; simp only [List.mem_singleton] at hx hy; rw [hx, hy]),
              isWsChunk_head d ds hh]
            exact hcls
          exact List.chain'_cons.mpr ⟨hR, ih⟩

/-- `splitChunks` output satisfies the wrapping invariant when the stated
length and hyphen conditions hold. -/
theorem goodChunks_splitChunks (l : List Char)
    (hle : ∀ ch ∈ splitChunks l, ch.length ≤ 60)
    (hhy : ∀ ch ∈ splitChunks l, isWsChunk ch = false → ch.getLastD ' ' ≠ '-') :
    GoodChunks (splitChunks l) :=
  ⟨fun ch hch => ⟨splitChunks_ne_nil_mem l ch hch, hle ch hch,
    splitChunks_homog l ch hch, hhy ch hch⟩, splitChunks_chain' l⟩

/-- The wrapping invariant restricts to the pieces of an append. -/
theorem goodChunks_append (xs ys : List (List Char)) (h : GoodChunks (xs ++ ys)) :
    GoodChunks xs ∧ GoodChunks ys := by
  obtain ⟨hpt, hch⟩ := h
  rw [List.chain'_append] at hch
  exact ⟨⟨fun ch hc => hpt ch (List.mem_append_left _ hc), hch.1⟩,
    fun ch hc => hpt ch (List.mem_append_right _ hc), hch.2.1⟩

/-- The leading-whitespace deletion preserves the wrapping invariant. -/
theorem goodChunks_dropTopWs (b : Bool) (chunks : List (List Char))
    (h : GoodChunks chunks) : GoodChunks (dropTopWs b chunks) := by
  unfold dropTopWs
  cases b with
  | false => exact h
  | true =>
    cases chunks with
    | nil => exact h
    | cons c0 rest0 =>
      dsimp only
      by_cases hws : isWsChunk c0 = true
      · rw [if_pos hws]
        exact ⟨fun ch hc => h.1 ch (List.mem_cons_of_mem _ hc),
          (List.chain'_cons'.mp h.2).2⟩
      · rw [if_neg hws]
        exact h

/-- Under the wrapping invariant, a surviving current line ends with a
non-whitespace chunk of the original line. -/
theorem dropTrailingWs_last (cur : List (List Char))
    (hch : List.Chain' (fun a b => isWsChunk a ≠ isWsChunk b) cur)
    (x : List Char) (xs : List (List Char)) (hd : dropTrailingWs cur = x :: xs) :
    ∃ lc2, (x :: xs).getLast? = some lc2 ∧ lc2 ∈ cur ∧ isWsChunk lc2 = false := by
  unfold dropTrailingWs at hd
  cases hl : cur.getLast? with
  | none =>
    rw [hl] at hd
    dsimp only at hd
    rw [List.getLast?_eq_none_iff.mp hl] at hd
    cases hd
  | some lc =>
    rw [hl] at hd
    dsimp only at hd
    by_cases hws : isWsChunk lc = true
    · rw [if_pos hws] at hd
      obtain ⟨ys, rfl⟩ := List.getLast?_eq_some_iff.mp hl
      rw [show (ys ++ [lc]).dropLast = ys by simp] at hd
      subst hd
      cases hl2 : (x :: xs).getLast? with
      | none => exact absurd (List.getLast?_eq_none_iff.mp hl2) (by simp)
      | some lc2 =>
        refine ⟨lc2, rfl, List.mem_append_left _ (mem_of_getLast?_eq hl2), ?_⟩
        rw [List.chain'_append] at hch
        have hR := hch.2.2 lc2 hl2 lc (by simp)
        cases hq : isWsChunk lc2 with
        | false => rfl
        | true =>
          rw [hq, hws] at hR
          exact absurd rfl hR
    · rw [if_neg hws] at hd
      subst hd
      refine ⟨lc, hl, mem_of_getLast?_eq hl, ?_⟩
      cases hq : isWsChunk lc with
      | false => rfl
      | true => exact absurd hq hws

/-- A `wrapStep` on an invariant-satisfying chunk list emits no line ending
in a hyphen, and its remainder satisfies the invariant again. -/
theorem wrapStep_good (chunks : List (List Char)) (hg : GoodChunks chunks) :
    (∀ ln, (wrapStep chunks).1 = some ln → ln.getLastD ' ' ≠ '-') ∧
    GoodChunks (wrapStep chunks).2 := by
  rcases hts : takeFits 0 chunks with ⟨cur, len, rest⟩
  have happ : cur ++ rest = chunks := by
    have := takeFits_append chunks 0
    rw [hts] at this
    exact this
  have hno : addLongWord (cur, len, rest) = (cur, rest) := by
    cases rest with
    | nil => rfl
    | cons r0 rs =>
      have hr0 : r0 ∈ chunks := by
        rw [← happ]
        exact List.mem_append_right _ (by simp)
      have h60 : ¬60 < r0.length := by
        have := (hg.1 r0 hr0).2.1
        omega
      simp only [addLongWord, if_neg h60]
  have hgc : GoodChunks cur ∧ GoodChunks rest := by
    apply goodChunks_append
    rw [happ]
    exact hg
  constructor
  · intro ln hln
    unfold wrapStep at hln
    rw [hts, hno] at hln
    dsimp only at hln
    cases hd : dropTrailingWs cur with
    | nil =>
      rw [hd] at hln
      cases hln
    | cons x xs =>
      rw [hd] at hln
      dsimp only at hln
      have hln2 : (x :: xs).flatten = ln := by
        cases hln
        rfl
      obtain ⟨lc2, hlc2, hlc2mem, hlc2ws⟩ := dropTrailingWs_last cur hgc.1.2 x xs hd
      have hlc2chunks : lc2 ∈ chunks := by
        rw [← happ]
        exact List.mem_append_left _ hlc2mem
      have hne : ∀ z ∈ x :: xs, z ≠ [] := by
        intro z hz
        have hz2 : z ∈ cur := dropTrailingWs_subset cur (hd ▸ hz)
        exact (hg.1 z (by rw [← happ]; exact List.mem_append_left _ hz2)).1
      have hfl := flatten_getLast? (x :: xs) hne
      have hgl : (x :: xs).getLastD [] = lc2 := by
        rw [List.getLastD_eq_getLast?, hlc2]
        rfl
      rw [hgl] at hfl
      rw [← hln2]
      rw [List.getLastD_eq_getLast?, hfl, ← List.getLastD_eq_getLast?]
      exact (hg.1 lc2 hlc2chunks).2.2.2 hlc2ws
  · rw [wrapStep_snd, hts, hno]
    exact hgc.2

/-- No line produced by the outer wrapping loop on invariant-satisfying
chunks ends with a hyphen. -/
theorem wrapOuterFuel_no_hyphen : ∀ (fuel : Nat) (chunks : List (List Char)) (b : Bool),
    GoodChunks chunks → ∀ ln ∈ wrapOuterFuel fuel chunks b,
    ln.getLastD ' ' ≠ '-' := by
  intro fuel
  induction fuel with
  | zero => intro chunks b _ ln h; simp [wrapOuterFuel] at h
  | succ fuel ih =>
    intro chunks b hg ln h
    unfold wrapOuterFuel at h
    cases hd : dropTopWs b chunks with
    | nil => rw [hd] at h; simp at h
    | cons c0 cs =>
      rw [hd] at h
      dsimp only at h
      have hg1 : GoodChunks (c0 :: cs) := hd ▸ goodChunks_dropTopWs b chunks hg
      have hws := wrapStep_good (c0 :: cs) hg1
      rcases hstep : wrapStep (c0 :: cs) with ⟨ln?, rest2⟩
      rw [hstep] at h hws
      dsimp only at hws
      cases ln? with
      | none =>
        dsimp only at h
        exact ih rest2 b hws.2 ln h
      | some l0 =>
        dsimp only at h
        rcases List.mem_cons.mp h with rfl | h2
        · exact hws.1 ln rfl
        · exact ih rest2 true hws.2 ln h2

/-- `_wrap` of a message whose maximal runs are short and whose words do
not end in hyphens produces no line ending in a hyphen. -/
theorem pyWrap_no_hyphen (ml : List Char)
    (hle : ∀ ch ∈ splitChunks (pyExpandtabs ml), ch.length ≤ 60)
    (hhy : ∀ ch ∈ splitChunks (pyExpandtabs ml),
      isWsChunk ch = false → ch.getLastD ' ' ≠ '-') :
    ∀ ln ∈ pyWrap ml, ln.getLastD ' ' ≠ '-' := by
  intro ln hln
  unfold pyWrap at hln
  cases hq : pyWrapChunks (splitChunks (pyExpandtabs ml)) with
  | nil =>
    rw [hq] at hln
    simp only [List.mem_singleton] at hln
    subst hln
    simp
  | cons p ps =>
    rw [hq] at hln
    dsimp only at hln
    have hmem : ln ∈ wrapOuterFuel
        (chunksMeasure (splitChunks (pyExpandtabs ml)) + 1)
        (splitChunks (pyExpandtabs ml)) false := by
      show ln ∈ pyWrapChunks (splitChunks (pyExpandtabs ml))
      rw [hq]
      exact hln
    exact wrapOuterFuel_no_hyphen _ _ false
      (goodChunks_splitChunks _ hle hhy) ln hmem

/-! ## Claim C5 -/

/-- Counterexample to claim C5: the 61-character all-whitespace message is
longer than 60 characters and contains no newline, yet the word-wrap flag
yields exactly one output line (`drop_whitespace` deletes every chunk and
`_wrap` falls back to `['']`), not at least two. -/
theorem claim5_counterexample :
    msgC5.length = 61 ∧
    msgC5.toList.contains '\n' = false ∧
    (textwrapLines msgC5).length = 1 ∧
    (ConsoleLogger.emit envOk rC5).outputs.length = 1 := by
  refine ⟨by decide, by decide, by decide, by decide⟩

/-- Claim C5 as amended: for every message longer than 60 characters with
no embedded line break, (1) every wrapped line is at most 60 characters
and (2) one record is emitted per wrapped line; (3) if the message neither
begins nor ends with a whitespace character, at least two lines are
produced; and (4) if no maximal whitespace or non-whitespace run of the
(tab-expanded) message exceeds 60 characters and no non-whitespace run ends
with a hyphen, then no wrapped line ends with a hyphen — that is, no line
boundary splits a word at a hyphen (`break_on_hyphens` is off, so hyphens
are never chosen as break points). -/
theorem claim5_wrap_properties (env : Env) (r : LogRecord)
    (hw : ∀ sid t, env.write sid t = none)
    (htw : r.textwrap = true) (hns : r.nosplitlines = false)
    (hfmt : r.raw = true ∨ KnownLevel r.levelno)
    (h60 : 60 < r.msg.length)
    (hnl : '\n' ∉ r.msg.toList) (hcr : '\r' ∉ r.msg.toList) :
    (∀ line ∈ textwrapLines r.msg, line.length ≤ 60) ∧
    (ConsoleLogger.emit env r).outputs.length = (textwrapLines r.msg).length ∧
    (isPySpace (r.msg.toList.headD ' ') = false →
      isPySpace (r.msg.toList.getLastD ' ') = false →
      2 ≤ (textwrapLines r.msg).length) ∧
    ((∀ ch ∈ splitChunks (pyExpandtabs r.msg.toList), ch.length ≤ 60) →
      (∀ ch ∈ splitChunks (pyExpandtabs r.msg.toList),
        isWsChunk ch = false → ch.getLastD ' ' ≠ '-') →
      ∀ line ∈ textwrapLines r.msg, line.toList.getLastD ' ' ≠ '-') := by
  have hmlen : r.msg.toList.length = r.msg.length := rfl
  have hmne : r.msg.toList ≠ [] := by
    intro hc
    rw [hc] at hmlen
    simp at hmlen
    omega
  have heq : textwrapLinesList r.msg.toList = pyWrap r.msg.toList :=
    textwrapLinesList_eq_pyWrap _ hmne hnl hcr
  refine ⟨textwrapLines_le r.msg, ?_, ?_, ?_⟩
  · have hbody : ConsoleLogger.emitBody env r =
        ConsoleLogger.emitLoop env r (ConsoleLogger.textwrapEmitLines r) := by
      unfold ConsoleLogger.emitBody
      rw [htw]
      simp only [if_true]
      rfl
    have hlines : ConsoleLogger.textwrapEmitLines r = textwrapLines r.msg := by
      unfold ConsoleLogger.textwrapEmitLines
      rw [hns]
      simp only [Bool.false_eq_true, if_false]
    obtain ⟨h1, -, -⟩ := emitLoop_ok env hw (ConsoleLogger.textwrapEmitLines r) r hfmt
    rw [emit_outputs, hbody, h1, hlines]
  · intro hh hl
    unfold textwrapLines
    rw [List.length_map, heq]
    exact pyWrap_two_lines r.msg.toList (by rw [hmlen]; exact h60) hh hl
  · intro hle hhy line hline
    unfold textwrapLines at hline
    obtain ⟨ll, hll, rfl⟩ := List.mem_map.mp hline
    rw [heq] at hll
    exact pyWrap_no_hyphen r.msg.toList hle hhy ll hll

/-- Witness for the amended C5: the 71-character two-word message of `rW`
wraps to at least two lines, and `emit` writes one record per line. -/
theorem claim5_wrap_properties_witness :
    2 ≤ (textwrapLines rW.msg).length ∧
    (ConsoleLogger.emit envOk rW).outputs.length = (textwrapLines rW.msg).length :=
  ⟨(claim5_wrap_properties envOk rW (fun _ _ => rfl) rfl rfl
      (Or.inr (Or.inr (Or.inl rfl))) (by decide) (by decide) (by decide)).2.2.1
      (by decide) (by decide),
    (claim5_wrap_properties envOk rW (fun _ _ => rfl) rfl rfl
      (Or.inr (Or.inr (Or.inl rfl))) (by decide) (by decide) (by decide)).2.1⟩

end StarClusterLogger
